import Mathlib

/-
Verification development for the szfs forensic ZFS reader.

Shallow embedding of the Rust sources (src/fletcher.rs, src/lz4.rs,
src/zio.rs, src/lib.rs, src/main.rs, src/dmu.rs,
src/yolo_block_recovery.rs) in Lean 4.

Modelling conventions used throughout:
  - byte sequences are `List Nat` (each element a byte value);
  - Rust `u64`/`u32` wrapping arithmetic is `Nat` arithmetic with explicit
    `% 2^64` / truncation masks at the points the machine width matters;
  - Rust iterators over bytes become `List Nat` with explicit rest-of-input
    threading; `Option`-returning parsers mirror the Rust `Option` parsers;
  - fallible operations returning `Result<T, ()>` become `Except Unit T`;
  - a Rust panic (failed `assert!`, out-of-bounds index, arithmetic
    underflow) is modelled as `Except.error ()`:   the surrounding claims
    only quantify over successful executions, and a panicking execution is
    never a successful one;
  - mutable caches (`LruCache`) are modelled as unbounded association
    lists threaded through the functions that mutate them (the claims under
    study do not concern eviction);
  - trait objects (`&mut dyn Vdev`, the vdevs map) become explicit
    function parameters standing for the corresponding method calls.
-/

/-! ## Byte-level helpers (src/byte_iter.rs)

The Rust code reads little-endian and big-endian machine integers off a
byte iterator, failing with `None` when the iterator runs out.  We model a
byte iterator as the list of bytes not yet consumed. -/

def u32FromLE (b0 b1 b2 b3 : Nat) : Nat :=
  b0 + 256 * b1 + 65536 * b2 + 16777216 * b3

def u64FromLE (b0 b1 b2 b3 b4 b5 b6 b7 : Nat) : Nat :=
  b0 + 256 * b1 + 65536 * b2 + 16777216 * b3 + 4294967296 * b4 +
    1099511627776 * b5 + 281474976710656 * b6 + 72057594037927936 * b7

def u64FromBE (b0 b1 b2 b3 b4 b5 b6 b7 : Nat) : Nat :=
  u64FromLE b7 b6 b5 b4 b3 b2 b1 b0

/-- Reading one byte (`read_u8` / `Iterator::next`). -/
def readU8 : List Nat → Option (Nat × List Nat)
  | [] => none
  | b :: rest => some (b, rest)

/-- Reading a little-endian `u16` (`read_u16_le`). -/
def readU16LE : List Nat → Option (Nat × List Nat)
  | b0 :: b1 :: rest => some (b0 + 256 * b1, rest)
  | _ => none

/-- Reading a little-endian `u32` (`read_u32_le`). -/
def readU32LE : List Nat → Option (Nat × List Nat)
  | b0 :: b1 :: b2 :: b3 :: rest => some (u32FromLE b0 b1 b2 b3, rest)
  | _ => none

/-- Reading a little-endian `u64` (`read_u64_le`). -/
def readU64LE : List Nat → Option (Nat × List Nat)
  | b0 :: b1 :: b2 :: b3 :: b4 :: b5 :: b6 :: b7 :: rest =>
    some (u64FromLE b0 b1 b2 b3 b4 b5 b6 b7, rest)
  | _ => none

/-- Reading a big-endian `u64` (`read_u64_be`). -/
def readU64BE : List Nat → Option (Nat × List Nat)
  | b0 :: b1 :: b2 :: b3 :: b4 :: b5 :: b6 :: b7 :: rest =>
    some (u64FromBE b0 b1 b2 b3 b4 b5 b6 b7, rest)
  | _ => none

/-- Skipping bytes (`skip_n_bytes`): fails when fewer than `n` bytes
remain, matching the `nth(n-1)` implementation. -/
def skipNBytes (n : Nat) (l : List Nat) : Option (List Nat) :=
  if l.length < n then none else some (l.drop n)

/-! ## Fletcher checksums (src/fletcher.rs) -/

/-- A four-lane 64-bit checksum value, the `[u64; 4]` of the Rust code. -/
structure F4 where
  s1 : Nat
  s2 : Nat
  s3 : Nat
  s4 : Nat
deriving DecidableEq, Repr

/-- Wrap-around modulus of 64-bit arithmetic. -/
def M64 : Nat := 2 ^ 64

/-- Loop body of `do_fletcher4`: `chunks_exact(4)` walks complete 4-byte
little-endian words, accumulating with `wrapping_add`; a trailing partial
word is dropped. -/
def do_fletcher4_go : List Nat → Nat → Nat → Nat → Nat → F4
  | b0 :: b1 :: b2 :: b3 :: rest, s1, s2, s3, s4 =>
    let n := u32FromLE b0 b1 b2 b3
    let s1' := (s1 + n) % M64
    let s2' := (s2 + s1') % M64
    let s3' := (s3 + s2') % M64
    let s4' := (s4 + s3') % M64
    do_fletcher4_go rest s1' s2' s3' s4'
  | _, s1, s2, s3, s4 => ⟨s1, s2, s3, s4⟩

/-- Model of `do_fletcher4` (src/fletcher.rs lines 1-13). -/
def do_fletcher4 (data : List Nat) : F4 :=
  do_fletcher4_go data 0 0 0 0

/-- Loop body of `do_fletcher2`: pairs of complete little-endian `u64`
words; the loop stops as soon as a full pair is unavailable. -/
def do_fletcher2_go : List Nat → Nat → Nat → Nat → Nat → F4
  | a0 :: a1 :: a2 :: a3 :: a4 :: a5 :: a6 :: a7 ::
      b0 :: b1 :: b2 :: b3 :: b4 :: b5 :: b6 :: b7 :: rest, s1, s2, s3, s4 =>
    let n0 := u64FromLE a0 a1 a2 a3 a4 a5 a6 a7
    let n1 := u64FromLE b0 b1 b2 b3 b4 b5 b6 b7
    let s1' := (s1 + n0) % M64
    let s2' := (s2 + n1) % M64
    let s3' := (s3 + s1') % M64
    let s4' := (s4 + s2') % M64
    do_fletcher2_go rest s1' s2' s3' s4'
  | _, s1, s2, s3, s4 => ⟨s1, s2, s3, s4⟩

/-- Model of `do_fletcher2` (src/fletcher.rs lines 15-30). -/
def do_fletcher2 (data : List Nat) : F4 :=
  do_fletcher2_go data 0 0 0 0

/-! Reference definition of fletcher4, written from the specification
wording: extract the complete 4-byte little-endian words in order, then
fold the four wrapping accumulations over them. -/

/-- Complete little-endian 32-bit words of a byte sequence; trailing bytes
that do not fill a word are dropped. -/
def leWords32 : List Nat → List Nat
  | b0 :: b1 :: b2 :: b3 :: rest => u32FromLE b0 b1 b2 b3 :: leWords32 rest
  | _ => []

/-- One wrapping fletcher4 accumulation step of the specification. -/
def fletcher4SpecStep : F4 → Nat → F4
  | ⟨s1, s2, s3, s4⟩, w =>
    let s1' := (s1 + w) % M64
    let s2' := (s2 + s1') % M64
    let s3' := (s3 + s2') % M64
    let s4' := (s4 + s3') % M64
    ⟨s1', s2', s3', s4'⟩

/-- Reference fletcher4 built from the specification text: start from
`(0,0,0,0)`, fold the step over the complete little-endian words. -/
def fletcher4FromSpec (data : List Nat) : F4 :=
  (leWords32 data).foldl fletcher4SpecStep ⟨0, 0, 0, 0⟩

theorem do_fletcher4_go_eq_foldl : ∀ (l : List Nat) (s1 s2 s3 s4 : Nat),
    do_fletcher4_go l s1 s2 s3 s4 =
      (leWords32 l).foldl fletcher4SpecStep ⟨s1, s2, s3, s4⟩
  | b0 :: b1 :: b2 :: b3 :: rest, s1, s2, s3, s4 => by
    simp only [do_fletcher4_go, leWords32, List.foldl_cons, fletcher4SpecStep]
    exact do_fletcher4_go_eq_foldl rest _ _ _ _
  | [], _, _, _, _ => rfl
  | [a], _, _, _, _ => rfl
  | [a, b], _, _, _, _ => rfl
  | [a, b, c], _, _, _, _ => rfl

/-- C6: do_fletcher4(data) equals the reference definition: starting from
(s1,s2,s3,s4) = (0,0,0,0) as u64 values, for each complete 4-byte word w of
data taken in order and decoded little-endian, s1 += w, s2 += s1, s3 += s2,
s4 += s3 with wrapping arithmetic; trailing bytes that do not fill a 4-byte
word are dropped, and the result is the 4-tuple [s1,s2,s3,s4]. -/
theorem C6_do_fletcher4_matches_reference (data : List Nat) :
    do_fletcher4 data = fletcher4FromSpec data :=
  do_fletcher4_go_eq_foldl data 0 0 0 0

/-! Sum characterisation of the first fletcher4 lane, used later for the
convolution-based block recovery argument: the first lane is the plain sum
of the little-endian words, reduced mod 2^64. -/

/-- Sum of the complete little-endian 32-bit words of a byte sequence. -/
def wordsSum (l : List Nat) : Nat := (leWords32 l).sum

theorem do_fletcher4_go_s1 : ∀ (l : List Nat) (s1 s2 s3 s4 : Nat), s1 < M64 →
    (do_fletcher4_go l s1 s2 s3 s4).s1 = (s1 + wordsSum l) % M64
  | b0 :: b1 :: b2 :: b3 :: rest, s1, s2, s3, s4, h => by
    simp only [do_fletcher4_go]
    rw [do_fletcher4_go_s1 rest _ _ _ _ (Nat.mod_lt _ (by simp [M64]))]
    have hw : wordsSum (b0 :: b1 :: b2 :: b3 :: rest) =
        u32FromLE b0 b1 b2 b3 + wordsSum rest := by
      simp [wordsSum, leWords32]
    rw [hw]
    simp only [M64]
    omega
  | [], s1, s2, s3, s4, h => by
    simp [do_fletcher4_go, wordsSum, leWords32, Nat.mod_eq_of_lt h]
  | [a], s1, s2, s3, s4, h => by
    simp [do_fletcher4_go, wordsSum, leWords32, Nat.mod_eq_of_lt h]
  | [a, b], s1, s2, s3, s4, h => by
    simp [do_fletcher4_go, wordsSum, leWords32, Nat.mod_eq_of_lt h]
  | [a, b, c], s1, s2, s3, s4, h => by
    simp [do_fletcher4_go, wordsSum, leWords32, Nat.mod_eq_of_lt h]

theorem do_fletcher4_s1_eq (l : List Nat) :
    (do_fletcher4 l).s1 = wordsSum l % M64 := by
  have := do_fletcher4_go_s1 l 0 0 0 0 (by simp [M64])
  simpa [do_fletcher4] using this

theorem leWords32_append : ∀ (a b : List Nat), 4 ∣ a.length →
    leWords32 (a ++ b) = leWords32 a ++ leWords32 b
  | b0 :: b1 :: b2 :: b3 :: rest, b, h => by
    have h4 : 4 ∣ rest.length := by
      simp only [List.length_cons] at h
      omega
    simp only [List.cons_append, leWords32, List.foldl_cons]
    rw [show rest.append b = rest ++ b from rfl, leWords32_append rest b h4]
  | [], b, _ => by simp [leWords32]
  | [x], b, h => by simp only [List.length_cons, List.length_nil] at h; omega
  | [x, y], b, h => by simp only [List.length_cons, List.length_nil] at h; omega
  | [x, y, z], b, h => by simp only [List.length_cons, List.length_nil] at h; omega

theorem wordsSum_append (a b : List Nat) (h : 4 ∣ a.length) :
    wordsSum (a ++ b) = wordsSum a + wordsSum b := by
  simp [wordsSum, leWords32_append a b h]

/-! ## LZ4 block decoding (src/lz4.rs) -/

/-- Extended-size loop of the LZ4 decoder: keep reading bytes and adding
them to the size, stopping after the first byte that is not 0xFF; fails
when the stream ends mid-extension. -/
def lz4ReadExtSize : List Nat → Option (Nat × List Nat)
  | [] => none
  | b :: rest =>
    if b = 255 then
      match lz4ReadExtSize rest with
      | none => none
      | some (n, r) => some (255 + n, r)
    else some (b, rest)

/-- Nibble with optional 0xFF-extension, shared by the literal-size and
match-length paths of the decoder. -/
def lz4ReadSizeExt (nib : Nat) (rest : List Nat) : Option (Nat × List Nat) :=
  if nib = 15 then
    match lz4ReadExtSize rest with
    | none => none
    | some (e, r) => some (nib + e, r)
  else some (nib, rest)

/-- Match-copy loop: repeatedly push `buf[pos]` and advance `pos`; the
buffer grows while being read, which is what lets a match overlap its own
output. -/
def lz4CopyLookback : Nat → Nat → List Nat → List Nat
  | 0, _, buf => buf
  | k + 1, pos, buf => lz4CopyLookback k (pos + 1) (buf ++ [buf.getD pos 0])

/-- Main loop of `lz4_decompress_blocks`.  The `fuel` argument bounds the
number of iterations; every iteration of the Rust loop consumes at least
the token byte, so `input length + 1` fuel is always enough.  An
`Except.error` carries the output produced so far, mirroring the
`Err(output_buf)` returns of the source. -/
def lz4Loop : Nat → List Nat → List Nat → Except (List Nat) (List Nat)
  | 0, _, out => .error out
  | fuel + 1, data, out =>
    match readU8 data with
    | none => .error out
    | some (token, rest0) =>
      let literal0 := token / 16
      let lookback0 := token % 16
      match lz4ReadSizeExt literal0 rest0 with
      | none => .error out
      | some (literalSize, rest1) =>
        if rest1.length < literalSize then .error (out ++ rest1)
        else
          let out1 := out ++ rest1.take literalSize
          let rest2 := rest1.drop literalSize
          match readU16LE rest2 with
          | none => if lookback0 = 0 then .ok out1 else .error out1
          | some (lookback, rest3) =>
            if out1.length < lookback ∨ lookback = 0 then .error out1
            else
              match lz4ReadSizeExt lookback0 rest3 with
              | none => .error out1
              | some (lookbackSize, rest4) =>
                let out2 := lz4CopyLookback (lookbackSize + 4) (out1.length - lookback) out1
                lz4Loop fuel rest4 out2

/-- Model of `lz4_decompress_blocks` (src/lz4.rs lines 9-81).  The
`hint_output_size` argument of the source only pre-sizes the output vector
and has no semantic effect, so it is omitted. -/
def lz4_decompress_blocks (data : List Nat) : Except (List Nat) (List Nat) :=
  lz4Loop (data.length + 1) data []

theorem lz4Loop_end_at_offset (fuel token : Nat) (rest lits out : List Nat)
    (hf : 0 < fuel)
    (henc : lz4ReadSizeExt (token / 16) rest = some (lits.length, lits)) :
    lz4Loop fuel (token :: rest) out =
      if token % 16 = 0 then .ok (out ++ lits) else .error (out ++ lits) := by
  obtain ⟨f, rfl⟩ : ∃ f, fuel = f + 1 := ⟨fuel - 1, by omega⟩
  simp only [lz4Loop, readU8, henc, List.length_drop, Nat.lt_irrefl, if_false,
    List.take_length, List.drop_length, lt_self_iff_false]
  simp [readU16LE]

/-- C9: in LZ4 block decoding, when the input stream ends exactly where a
2-byte match-offset would begin (the token, its literal-size extension
bytes and exactly the announced literal bytes fill the remaining input),
decoding terminates successfully, returning the output produced so far, if
and only if the last token's match-length nibble was 0; otherwise decoding
fails.  Stated both for the decoder loop mid-stream (arbitrary output
accumulated so far) and for the top-level entry point. -/
theorem C9_lz4_stream_end_terminator (fuel token : Nat) (rest lits out : List Nat)
    (hf : 0 < fuel)
    (henc : lz4ReadSizeExt (token / 16) rest = some (lits.length, lits)) :
    (lz4Loop fuel (token :: rest) out =
      if token % 16 = 0 then .ok (out ++ lits) else .error (out ++ lits)) ∧
    (lz4_decompress_blocks (token :: rest) =
      if token % 16 = 0 then .ok lits else .error lits) := by
  refine ⟨lz4Loop_end_at_offset fuel token rest lits out hf henc, ?_⟩
  have h := lz4Loop_end_at_offset ((token :: rest).length + 1) token rest lits []
    (by simp) henc
  simpa [lz4_decompress_blocks] using h

/-- Witness for C9 at a concrete input: token 0x21 has literal nibble 2 and
match nibble 1, the stream ends right after the two literal bytes, so the
decode fails, surrendering the two literals. -/
theorem C9_lz4_stream_end_terminator_witness :
    (0 : Nat) < 1 ∧
    lz4ReadSizeExt (33 / 16) [7, 9] = some (([7, 9] : List Nat).length, [7, 9]) ∧
    lz4_decompress_blocks [33, 7, 9] = .error [7, 9] := by
  have h := C9_lz4_stream_end_terminator 1 33 [7, 9] [7, 9] [] (by decide) (by decide)
  exact ⟨by decide, by decide, by simpa using h.2⟩

/-! ## Checksum and compression kinds (src/zio.rs lines 253-339) -/

inductive ChecksumMethod where
  | Inherit | On | Off | Label | GangHeader | Zilog | Fletcher2 | Fletcher4
  | Sha256 | Zilog2 | NoParity | Sha512 | Skein | Edonr | Blake3
deriving DecidableEq, Repr

/-- Model of `ChecksumMethod::from_value`. -/
def ChecksumMethod.from_value : Nat → Option ChecksumMethod
  | 0 => some .Inherit
  | 1 => some .On
  | 2 => some .Off
  | 3 => some .Label
  | 4 => some .GangHeader
  | 5 => some .Zilog
  | 6 => some .Fletcher2
  | 7 => some .Fletcher4
  | 8 => some .Sha256
  | 9 => some .Zilog2
  | 10 => some .NoParity
  | 11 => some .Sha512
  | 12 => some .Skein
  | 13 => some .Edonr
  | 14 => some .Blake3
  | _ => none

inductive CompressionMethod where
  | Inherit | On | Off | Lzjb | Empty
  | Gzip1 | Gzip2 | Gzip3 | Gzip4 | Gzip5 | Gzip6 | Gzip7 | Gzip8 | Gzip9
  | Zle | Lz4 | Zstd
deriving DecidableEq, Repr

/-- Model of `CompressionMethod::from_value`. -/
def CompressionMethod.from_value : Nat → Option CompressionMethod
  | 0 => some .Inherit
  | 1 => some .On
  | 2 => some .Off
  | 3 => some .Lzjb
  | 4 => some .Empty
  | 5 => some .Gzip1
  | 6 => some .Gzip2
  | 7 => some .Gzip3
  | 8 => some .Gzip4
  | 9 => some .Gzip5
  | 10 => some .Gzip6
  | 11 => some .Gzip7
  | 12 => some .Gzip8
  | 13 => some .Gzip9
  | 14 => some .Zle
  | 15 => some .Lz4
  | 16 => some .Zstd
  | _ => none

/-- Object types (src/dmu.rs lines 4-126).  The Rust `ObjType` enum carries
discriminants exactly 0..=53 and `from_value` is the identity on that
range; the embedded code only ever needs the numeric value, so we keep it
as a wrapped `Nat`. -/
structure ObjTypeM where
  val : Nat
deriving DecidableEq, Repr

/-- Model of `ObjType::from_value`: defined exactly for 0..=53. -/
def ObjTypeM.from_value (v : Nat) : Option ObjTypeM :=
  if v ≤ 53 then some ⟨v⟩ else none

/-! ## LZJB decompression (src/lzjb.rs) -/

/-- Match-copy loop of LZJB: push `buf[pos]` until the requested count is
exhausted or the output already reached the target length. -/
def lzjbCopy : Nat → Nat → Nat → List Nat → List Nat
  | 0, _, _, buf => buf
  | k + 1, pos, olen, buf =>
    if olen ≤ buf.length then buf
    else lzjbCopy k (pos + 1) olen (buf ++ [buf.getD pos 0])

/-- Main loop of `lzjb_decompress`.  Every iteration of the Rust loop
grows the output by at least one byte or terminates, so fuel
`output_length + 1` is always sufficient. -/
def lzjbLoop : Nat → Nat → Nat → List Nat → List Nat → Nat → Except Unit (List Nat)
  | 0, _, _, _, _, _ => .error ()
  | fuel + 1, copymap, copymask, data, out, olen =>
    if olen ≤ out.length then .ok out
    else
      let cm := copymask <<< 1
      match (if cm = 256 then
               match readU8 data with
               | none => none
               | some (m, r) => some (m, 1, r)
             else some (copymap, cm, data)) with
      | none => .error ()
      | some (map2, mask2, data2) =>
        if map2 &&& mask2 ≠ 0 then
          match readU8 data2 with
          | none => .error ()
          | some (byte0, d3) =>
            match readU8 d3 with
            | none => .error ()
            | some (byte1, d4) =>
              let lookback_size := byte0 / 4 + 3
              let lookback := (byte0 * 256 + byte1) % 1024
              if out.length < lookback ∨ lookback = 0 then .error ()
              else
                lzjbLoop fuel map2 mask2 d4
                  (lzjbCopy lookback_size (out.length - lookback) olen out) olen
        else
          match readU8 data2 with
          | none => .error ()
          | some (b, d3) => lzjbLoop fuel map2 mask2 d3 (out ++ [b]) olen

/-- Model of `lzjb_decompress` (src/lzjb.rs lines 6-37): copymap starts at
zero with the copymask positioned so the first iteration reads a fresh
copymap byte. -/
def lzjb_decompress (data : List Nat) (output_length : Nat) : Except Unit (List Nat) :=
  lzjbLoop (output_length + 1) 0 128 data [] output_length

/-! ## Block compression and checksum dispatch (src/zio.rs lines 341-412) -/

/-- Model of `try_decompress_block`.  For LZ4 the stream is framed by a
4-byte big-endian payload length; unsupported kinds fail. -/
def try_decompress_block (block_data : List Nat)
    (compression_method : CompressionMethod) (output_size : Nat) :
    Except (List Nat) (List Nat) :=
  match compression_method with
  | .Off => .ok block_data
  | .Lz4 | .On =>
    match block_data with
    | b0 :: b1 :: b2 :: b3 :: rest =>
      let comp_size := u32FromLE b3 b2 b1 b0
      if block_data.length < comp_size + 4 then .error []
      else lz4_decompress_blocks (rest.take comp_size)
    | _ => .error []
  | .Lzjb =>
    match lzjb_decompress block_data output_size with
    | .ok d => .ok d
    | .error _ => .error []
  | _ => .error []

/-- Model of `try_checksum_block`: only the fletcher kinds (and their
aliases) are implemented; everything else returns `None`. -/
def try_checksum_block (block_data : List Nat)
    (checksum_method : ChecksumMethod) : Option F4 :=
  match checksum_method with
  | .Fletcher4 | .GangHeader | .On => some (do_fletcher4 block_data)
  | .Fletcher2 => some (do_fletcher2 block_data)
  | _ => none

/-! ## Data virtual addresses and block pointers (src/zio.rs) -/

structure DataVirtualAddress where
  vdev_id : Nat
  data_allocated_size_minus_one_in_512b_sectors : Nat
  offset_in_512b_sectors : Nat
  is_gang : Bool
deriving DecidableEq, Repr

/-- Model of `DataVirtualAddress::from_bytes_le` (src/zio.rs lines 76-97):
an all-zero DVA is the absent-DVA marker and parses to `None`. -/
def DataVirtualAddress.from_bytes_le (data : List Nat) : Option DataVirtualAddress := do
  let (w0, data) ← readU32LE data
  let vdev_id := (w0 &&& 0xFFFFFF00) >>> 8
  let (grid_and_asize, data) ← readU32LE data
  let (offset_and_gang_bit, _) ← readU64LE data
  if vdev_id = 0 ∧ grid_and_asize = 0 ∧ offset_and_gang_bit = 0 then none
  else
    some { vdev_id := vdev_id
           data_allocated_size_minus_one_in_512b_sectors :=
             (grid_and_asize &&& 0xFFFFFF00) >>> 8
           offset_in_512b_sectors := offset_and_gang_bit &&& (2 ^ 63 - 1)
           is_gang := (offset_and_gang_bit &&& 2 ^ 63) ≠ 0 }

/-- Model of `DataVirtualAddress::from`. -/
def DataVirtualAddress.from (vdev_id offset_in_bytes : Nat) (is_gang : Bool) :
    DataVirtualAddress :=
  { vdev_id := vdev_id
    data_allocated_size_minus_one_in_512b_sectors := 0
    offset_in_512b_sectors := offset_in_bytes / 512
    is_gang := is_gang }

/-- Allocated size in bytes (stored as 512-byte sectors minus one). -/
def DataVirtualAddress.parse_allocated_size (dva : DataVirtualAddress) : Nat :=
  (dva.data_allocated_size_minus_one_in_512b_sectors + 1) * 512

/-- Offset in bytes from the beginning of the vdev body. -/
def DataVirtualAddress.parse_offset (dva : DataVirtualAddress) : Nat :=
  dva.offset_in_512b_sectors * 512

structure NormalBlockPointer where
  dvas : List (Option DataVirtualAddress)
  level : Nat
  fill : Nat
  logical_birth_txg : Nat
  typ : ObjTypeM
  checksum_method : ChecksumMethod
  compression_method : CompressionMethod
  physical_size_in_512b_sectors_minus_one : Nat
  logical_size_in_512b_sectors_minus_one : Nat
  checksum : F4
deriving DecidableEq, Repr

/-- Logical size in bytes (sectors minus one encoding). -/
def NormalBlockPointer.parse_logical_size (bp : NormalBlockPointer) : Nat :=
  (bp.logical_size_in_512b_sectors_minus_one + 1) * 512

/-- Physical size in bytes (sectors minus one encoding). -/
def NormalBlockPointer.parse_physical_size (bp : NormalBlockPointer) : Nat :=
  (bp.physical_size_in_512b_sectors_minus_one + 1) * 512

/-- Model of `NormalBlockPointer::from_bytes_le` (src/zio.rs lines
462-523): three DVA slots, the info word with embedded/encrypted/endian
bit checks, then birth TXG, fill count and the four checksum lanes. -/
def NormalBlockPointer.from_bytes_le (data : List Nat) : Option NormalBlockPointer := do
  let dva1 := DataVirtualAddress.from_bytes_le data
  let data ← skipNBytes 16 data
  let dva2 := DataVirtualAddress.from_bytes_le data
  let data ← skipNBytes 16 data
  let dva3 := DataVirtualAddress.from_bytes_le data
  let data ← skipNBytes 16 data
  let (info, data) ← readU64LE data
  if (info >>> 39) &&& 1 ≠ 0 then none
  else if (info >>> 61) &&& 1 ≠ 0 then none
  else if (info >>> 63) &&& 1 ≠ 1 then none
  else do
    let data ← skipNBytes 24 data
    let (logical_birth_txg, data) ← readU64LE data
    let (fill_count, data) ← readU64LE data
    let (c1, data) ← readU64LE data
    let (c2, data) ← readU64LE data
    let (c3, data) ← readU64LE data
    let (c4, _) ← readU64LE data
    let typ ← ObjTypeM.from_value ((info >>> 48) &&& 255)
    let cksum ← ChecksumMethod.from_value ((info >>> 40) &&& 255)
    let comp ← CompressionMethod.from_value ((info >>> 32) &&& 127)
    some { dvas := [dva1, dva2, dva3]
           level := (info >>> 56) &&& 31
           fill := fill_count
           logical_birth_txg := logical_birth_txg
           typ := typ
           checksum_method := cksum
           compression_method := comp
           physical_size_in_512b_sectors_minus_one := (info >>> 16) &&& 65535
           logical_size_in_512b_sectors_minus_one := info &&& 65535
           checksum := ⟨c1, c2, c3, c4⟩ }

structure EmbeddedBlockPointer where
  payload : List Nat
  logical_birth_txg : Nat
  level : Nat
  typ : ObjTypeM
  embedded_data_type : ObjTypeM
  compression_method : CompressionMethod
  physical_size_in_bytes : Nat
  logical_size_in_bytes : Nat
deriving DecidableEq, Repr

/-- Model of the embedded block pointer parser (src/zio.rs lines 670-727):
48 payload bytes, the info word with its bit checks, 24 more payload
bytes, the birth TXG, then 40 final payload bytes. -/
def EmbeddedBlockPointer.from_bytes_le (data : List Nat) : Option EmbeddedBlockPointer := do
  if data.length < 48 then none
  else
    let payload1 := data.take 48
    let data := data.drop 48
    let (info, data) ← readU64LE data
    if (info >>> 39) &&& 1 ≠ 1 then none
    else if (info >>> 61) &&& 1 ≠ 0 then none
    else if (info >>> 63) &&& 1 ≠ 1 then none
    else if data.length < 24 then none
    else
      let payload2 := data.take 24
      let data := data.drop 24
      let (logical_birth_txg, data) ← readU64LE data
      if data.length < 40 then none
      else do
        let payload3 := data.take 40
        let typ ← ObjTypeM.from_value ((info >>> 48) &&& 255)
        let etyp ← ObjTypeM.from_value ((info >>> 40) &&& 255)
        let comp ← CompressionMethod.from_value ((info >>> 32) &&& 127)
        some { payload := payload1 ++ payload2 ++ payload3
               logical_birth_txg := logical_birth_txg
               level := (info >>> 56) &&& 31
               typ := typ
               embedded_data_type := etyp
               compression_method := comp
               physical_size_in_bytes := (info >>> 24) &&& 255
               logical_size_in_bytes := info &&& 16777215 }

inductive BlockPointer where
  | Normal : NormalBlockPointer → BlockPointer
  | Embedded : EmbeddedBlockPointer → BlockPointer
deriving DecidableEq, Repr

/-- On-disk size of a block pointer: 128 bytes. -/
def BlockPointer.get_ondisk_size : Nat := 128

/-- Model of `BlockPointer::get_info_form_bytes_le` (name kept as in the
source): skip the DVA area and read the info word. -/
def BlockPointer.get_info_form_bytes_le (data : List Nat) : Option Nat := do
  let data ← skipNBytes 48 data
  let (info, _) ← readU64LE data
  some info

/-- Model of `BlockPointer::from_bytes_le`: dispatch on the embedded bit
of the info word. -/
def BlockPointer.from_bytes_le (data : List Nat) : Option BlockPointer := do
  let info ← BlockPointer.get_info_form_bytes_le data
  if (info >>> 39) &&& 1 ≠ 0 then
    match EmbeddedBlockPointer.from_bytes_le data with
    | some e => some (BlockPointer.Embedded e)
    | none => none
  else
    match NormalBlockPointer.from_bytes_le data with
    | some n => some (BlockPointer.Normal n)
    | none => none

/-! ## Normal block pointer dereference (src/zio.rs lines 538-638)

The block cache keyed by `(checksum, checksum-kind)` lives in the raidz
vdev; it is modelled as an association list.  The call
`dva.dereference(vdevs, size)` is abstracted by the function argument
`dvaDeref`, and the compile-time `yolo` feature together with
`find_block_with_fletcher4_checksum` by the `yoloEnabled` flag and the
`yoloFind` oracle. -/

abbrev BlockCacheKey := F4 × ChecksumMethod

abbrev BlockCache := List (BlockCacheKey × List Nat)

/-- Lookup in the block cache (`get_from_block_cache`). -/
def cacheLookup (cache : BlockCache) (k : BlockCacheKey) : Option (List Nat) :=
  match cache.find? (fun e => decide (e.1 = k)) with
  | some e => some e.2
  | none => none

/-- Insertion into the block cache (`put_in_block_cache`). -/
def cachePut (cache : BlockCache) (k : BlockCacheKey) (v : List Nat) : BlockCache :=
  (k, v) :: cache

/-- The `for dva in self.dvas.iter().filter_map(..)` loop of
`NormalBlockPointer::dereference`: try each present DVA in order; checksum
mismatch, failed decompression or a logical-size mismatch skip to the next
DVA. -/
def NormalBlockPointer.derefDvaLoop (bp : NormalBlockPointer)
    (dvaDeref : DataVirtualAddress → Nat → Except Unit (List Nat)) :
    List DataVirtualAddress → Option (List Nat)
  | [] => none
  | dva :: rest =>
    match dvaDeref dva bp.parse_physical_size with
    | .error _ => bp.derefDvaLoop dvaDeref rest
    | .ok data =>
      match try_checksum_block data bp.checksum_method with
      | none => bp.derefDvaLoop dvaDeref rest
      | some computed =>
        if computed ≠ bp.checksum then bp.derefDvaLoop dvaDeref rest
        else
          match try_decompress_block data bp.compression_method bp.parse_logical_size with
          | .error _ => bp.derefDvaLoop dvaDeref rest
          | .ok data2 =>
            if data2.length ≠ bp.parse_logical_size then bp.derefDvaLoop dvaDeref rest
            else some data2

/-- Model of `NormalBlockPointer::dereference` (src/zio.rs lines 538-638):
block-cache probe, the DVA loop, then, when the yolo feature is enabled
and the checksum kind is fletcher4, the recovery fallback; total failure
returns an error without touching the cache, exactly as the source does. -/
def NormalBlockPointer.dereference (bp : NormalBlockPointer)
    (dvaDeref : DataVirtualAddress → Nat → Except Unit (List Nat))
    (yoloEnabled : Bool) (yoloFind : F4 → Nat → Option Nat)
    (cache : BlockCache) : Except Unit (List Nat) × BlockCache :=
  match cacheLookup cache (bp.checksum, bp.checksum_method) with
  | some res => (.ok res, cache)
  | none =>
    match bp.derefDvaLoop dvaDeref (bp.dvas.filterMap id) with
    | some data => (.ok data, cachePut cache (bp.checksum, bp.checksum_method) data)
    | none =>
      if yoloEnabled ∧ bp.checksum_method = ChecksumMethod.Fletcher4 then
        match yoloFind bp.checksum bp.parse_physical_size with
        | some res_off =>
          let dva := DataVirtualAddress.from 0 res_off false
          match dvaDeref dva bp.parse_physical_size with
          | .error _ => (.error (), cache)
          | .ok d =>
            match try_decompress_block d bp.compression_method bp.parse_logical_size with
            | .error _ => (.error (), cache)
            | .ok data =>
              if data.length ≠ bp.parse_logical_size then (.error (), cache)
              else (.ok data, cachePut cache (bp.checksum, bp.checksum_method) data)
        | none => (.error (), cache)
      else (.error (), cache)

theorem derefDvaLoop_ok (bp : NormalBlockPointer)
    (dvaDeref : DataVirtualAddress → Nat → Except Unit (List Nat)) :
    ∀ (l : List DataVirtualAddress) (v : List Nat),
      bp.derefDvaLoop dvaDeref l = some v →
      ∃ dva ∈ l, ∃ data,
        dvaDeref dva bp.parse_physical_size = .ok data ∧
        try_checksum_block data bp.checksum_method = some bp.checksum ∧
        try_decompress_block data bp.compression_method bp.parse_logical_size = .ok v ∧
        v.length = bp.parse_logical_size := by
  intro l
  induction l with
  | nil => intro v h; simp [NormalBlockPointer.derefDvaLoop] at h
  | cons dva rest ih =>
    intro v h
    rw [NormalBlockPointer.derefDvaLoop] at h
    split at h
    · obtain ⟨d, hm, hr⟩ := ih v h
      exact ⟨d, List.mem_cons_of_mem _ hm, hr⟩
    · rename_i data hd
      split at h
      · obtain ⟨d, hm, hr⟩ := ih v h
        exact ⟨d, List.mem_cons_of_mem _ hm, hr⟩
      · rename_i computed hc
        split at h
        · obtain ⟨d, hm, hr⟩ := ih v h
          exact ⟨d, List.mem_cons_of_mem _ hm, hr⟩
        · rename_i hne
          split at h
          · obtain ⟨d, hm, hr⟩ := ih v h
            exact ⟨d, List.mem_cons_of_mem _ hm, hr⟩
          · rename_i data2 hdec
            split at h
            · obtain ⟨d, hm, hr⟩ := ih v h
              exact ⟨d, List.mem_cons_of_mem _ hm, hr⟩
            · rename_i hlen
              obtain rfl : data2 = v := by simpa using h
              refine ⟨dva, List.mem_cons_self _ _, data, hd, ?_, hdec, by simpa using hlen⟩
              rw [hc]
              have : computed = bp.checksum := by simpa using hne
              rw [this]

/-- C1 (amended): for a normal block pointer whose dereference succeeds on
a cold cache with the yolo fallback disabled, the stored checksum covers
the physical bytes read from one of the DVAs, before decompression; the
logical bytes returned are the decompression of exactly those physical
bytes.  The claim as originally stated, that the checksum covers the
returned logical bytes, is refuted by the counterexample below. -/
theorem C1_checksum_covers_physical_bytes (bp : NormalBlockPointer)
    (dvaDeref : DataVirtualAddress → Nat → Except Unit (List Nat))
    (yoloFind : F4 → Nat → Option Nat) (cache : BlockCache)
    (hmiss : cacheLookup cache (bp.checksum, bp.checksum_method) = none)
    (v : List Nat) (c2 : BlockCache)
    (hok : bp.dereference dvaDeref false yoloFind cache = (.ok v, c2)) :
    ∃ dva, some dva ∈ bp.dvas ∧ ∃ data,
      dvaDeref dva bp.parse_physical_size = .ok data ∧
      try_checksum_block data bp.checksum_method = some bp.checksum ∧
      try_decompress_block data bp.compression_method bp.parse_logical_size = .ok v ∧
      v.length = bp.parse_logical_size := by
  rw [NormalBlockPointer.dereference, hmiss] at hok
  rcases hl : bp.derefDvaLoop dvaDeref (bp.dvas.filterMap id) with _ | data
  · rw [hl] at hok
    simp at hok
  · rw [hl] at hok
    simp only [Prod.mk.injEq, Except.ok.injEq] at hok
    obtain ⟨hv, hc2⟩ := hok
    subst hv
    obtain ⟨dva, hmem, d, hrest⟩ :=
      derefDvaLoop_ok bp dvaDeref (bp.dvas.filterMap id) data hl
    obtain ⟨o, ho, ho2⟩ := List.mem_filterMap.mp hmem
    have hov : o = some dva := by simpa using ho2
    refine ⟨dva, ?_, d, hrest⟩
    rw [hov] at ho
    exact ho

/-- Compressed payload of the C1 counterexample: 498 literal zero bytes
(with extended literal size), a match of length 14 at offset 1, then the
stream-end token. -/
def c1Stream : List Nat := [250, 255, 228] ++ List.replicate 498 0 ++ [1, 0, 0]

/-- Physical block bytes of the C1 counterexample: LZ4 framing (504-byte
big-endian payload length), the payload, and zero padding to the 512-byte
physical size. -/
def c1DvaBytes : List Nat := [0, 0, 1, 248] ++ c1Stream ++ List.replicate 4 0

/-- An lz4-compressed normal block pointer whose checksum is the fletcher4
of the physical (compressed) bytes, as the code verifies it. -/
def c1Bp : NormalBlockPointer :=
  { dvas := [some (DataVirtualAddress.from 0 0 false), none, none]
    level := 0
    fill := 1
    logical_birth_txg := 0
    typ := ⟨19⟩
    checksum_method := ChecksumMethod.Fletcher4
    compression_method := CompressionMethod.Lz4
    physical_size_in_512b_sectors_minus_one := 0
    logical_size_in_512b_sectors_minus_one := 0
    checksum := do_fletcher4 c1DvaBytes }

/-- The vdev read of the C1 counterexample: every DVA read returns the
fixed 512 physical bytes. -/
def c1DvaDeref : DataVirtualAddress → Nat → Except Unit (List Nat) :=
  fun _ _ => .ok c1DvaBytes

set_option maxRecDepth 100000 in
set_option maxHeartbeats 1600000 in
/-- C1 counterexample: this dereference succeeds and returns 512 zero
bytes, whose fletcher4 is not the stored checksum; the stored checksum
covers the compressed bytes instead. -/
theorem C1_logical_bytes_checksum_refuted :
    (c1Bp.dereference c1DvaDeref false (fun _ _ => none) []).1 =
      .ok (List.replicate 512 0) ∧
    do_fletcher4 (List.replicate 512 0) ≠ c1Bp.checksum := by
  exact ⟨rfl, by decide⟩

set_option maxRecDepth 100000 in
set_option maxHeartbeats 1600000 in
/-- Witness for the amended C1 theorem at the concrete counterexample
block pointer. -/
theorem C1_checksum_covers_physical_bytes_witness :
    cacheLookup [] (c1Bp.checksum, c1Bp.checksum_method) = none ∧
    ∃ dva, some dva ∈ c1Bp.dvas ∧ ∃ data,
      c1DvaDeref dva c1Bp.parse_physical_size = .ok data ∧
      try_checksum_block data c1Bp.checksum_method = some c1Bp.checksum ∧
      try_decompress_block data c1Bp.compression_method c1Bp.parse_logical_size =
        .ok (List.replicate 512 0) ∧
      (List.replicate (512 : Nat) (0 : Nat)).length = c1Bp.parse_logical_size :=
  ⟨rfl, C1_checksum_covers_physical_bytes c1Bp c1DvaDeref (fun _ _ => none) [] rfl
    (List.replicate 512 0)
    (cachePut [] (c1Bp.checksum, c1Bp.checksum_method) (List.replicate 512 0)) rfl⟩

/-- A block pointer whose only DVA is unreadable, used to exhibit the
uncached failure path. -/
def c5Bp : NormalBlockPointer :=
  { dvas := [some (DataVirtualAddress.from 0 0 false), none, none]
    level := 0
    fill := 1
    logical_birth_txg := 0
    typ := ⟨19⟩
    checksum_method := ChecksumMethod.Fletcher4
    compression_method := CompressionMethod.Off
    physical_size_in_512b_sectors_minus_one := 0
    logical_size_in_512b_sectors_minus_one := 0
    checksum := ⟨1, 2, 3, 4⟩ }

/-- C5 (code bug evidence): when every DVA fails and the yolo fallback
finds nothing, `dereference` returns the error with the block cache
unchanged; no None entry is recorded under (checksum, kind), and an
immediately repeated dereference performs the whole search again instead
of returning a remembered failure. -/
theorem C5_failed_dereference_not_cached :
    c5Bp.dereference (fun _ _ => .error ()) true (fun _ _ => none) [] =
      (.error (), []) ∧
    cacheLookup [] (c5Bp.checksum, c5Bp.checksum_method) = none ∧
    c5Bp.dereference (fun _ _ => .error ()) true (fun _ _ => none)
        (c5Bp.dereference (fun _ _ => .error ()) true (fun _ _ => none) []).2 =
      (.error (), []) :=
  ⟨rfl, rfl, rfl⟩

/-! ## RAIDZ vdev (src/lib.rs lines 242-503)

The leaf devices (`HashMap<usize, &mut dyn Vdev>`) become a partial map
from device number to a read function `(offset, amount) -> bytes`; the
sector LRU becomes an association list threaded through reads. -/

structure VdevRaidzM where
  devices : Nat → Option (Nat → Nat → Except Unit (List Nat))
  ndevices : Nat
  nparity : Nat
  asize : Nat

abbrev SectorCache := List (Nat × List Nat)

/-- Sector cache lookup. -/
def scLookup (c : SectorCache) (i : Nat) : Option (List Nat) :=
  match c.find? (fun e => decide (e.1 = i)) with
  | some e => some e.2
  | none => none

/-- Sector cache insertion. -/
def scPut (c : SectorCache) (i : Nat) (v : List Nat) : SectorCache :=
  (i, v) :: c

/-- Model of `VdevRaidz::read_sector` (src/lib.rs lines 286-323): cache
probe, then device number `index mod N` and per-device sector
`index / N`. -/
def VdevRaidzM.read_sector (v : VdevRaidzM) (cache : SectorCache)
    (sector_index : Nat) : Except Unit (List Nat) × SectorCache :=
  match scLookup cache sector_index with
  | some res => (.ok res, cache)
  | none =>
    let device_sector_index := sector_index / v.ndevices
    let device_number := sector_index % v.ndevices
    match v.devices device_number with
    | none => (.error (), cache)
    | some dev =>
      match dev (device_sector_index * v.asize) v.asize with
      | .error e => (.error e, cache)
      | .ok res => (.ok res, scPut cache sector_index res)

/-- The `for sector_index in 1..=sectors_to_read` loop of
`VdevRaidz::read`. -/
def VdevRaidzM.readLoop (v : VdevRaidzM) :
    Nat → Nat → Nat → List Nat → SectorCache → Except Unit (List Nat) × SectorCache
  | 0, _, _, acc, c => (.ok acc, c)
  | k + 1, first, i, acc, c =>
    match v.read_sector c (first + i) with
    | (.error e, c2) => (.error e, c2)
    | (.ok sec, c2) => v.readLoop k first (i + 1) (acc ++ sec) c2

/-- Model of `VdevRaidz::read` (src/lib.rs lines 393-426): read the first
sector, skip the in-sector offset, then whole sectors until the request is
covered, truncating to the requested amount.  Reading 0 bytes always
succeeds. -/
def VdevRaidzM.read (v : VdevRaidzM) (offset_in_bytes amount_in_bytes : Nat)
    (c : SectorCache) : Except Unit (List Nat) × SectorCache :=
  if amount_in_bytes = 0 then (.ok [], c)
  else
    let first_sector_index := offset_in_bytes / v.asize
    let first_sector_offset := offset_in_bytes % v.asize
    match v.read_sector c first_sector_index with
    | (.error e, c1) => (.error e, c1)
    | (.ok first_sector, c1) =>
      let result := first_sector.drop first_sector_offset
      if amount_in_bytes ≤ result.length then (.ok (result.take amount_in_bytes), c1)
      else
        let size_remaining := amount_in_bytes - result.length
        let sectors_to_read :=
          if size_remaining % v.asize = 0 then size_remaining / v.asize
          else size_remaining / v.asize + 1
        match v.readLoop sectors_to_read first_sector_index 1 result c1 with
        | (.error e, c2) => (.error e, c2)
        | (.ok res, c2) =>
          if amount_in_bytes ≤ res.length then (.ok (res.take amount_in_bytes), c2)
          else (.error (), c2)

/-- The `Vec::chunks` iterator: split a list into consecutive chunks of
`n` elements; the final chunk may be shorter. -/
def listChunks {α : Type} (n : Nat) : List α → List (List α)
  | [] => []
  | a :: rest =>
    if h : n = 0 then []
    else (a :: rest).take n :: listChunks n ((a :: rest).drop n)
termination_by l => l.length
decreasing_by
  simp only [List.length_drop]
  cases n with
  | zero => exact absurd rfl h
  | succ m => simp [List.length_cons]; omega

/-- The `Iterator::step_by` adaptor: keep the first element of every run
of `n`. -/
def stepBy {α : Type} (n : Nat) : List α → List α
  | [] => []
  | a :: rest => a :: stepBy n (rest.drop (n - 1))
termination_by l => l.length
decreasing_by simp only [List.length_drop, List.length_cons]; omega

theorem stepBy_pair {α : Type} (a b : α) : stepBy 4 [a, b] = [a] := by
  rw [stepBy, show List.drop (4 - 1) [b] = [] from rfl, stepBy]

/-- The `Vec::swap(0, 1)` of the column mapping. -/
def swap01 {α : Type} : List α → List α
  | a :: b :: rest => b :: a :: rest
  | l => l

/-- Column-to-device mapping of `DataVirtualAddress::dereference_raw`
(src/zio.rs lines 216-219): identity, except that single-parity pools swap
columns 0 and 1 on odd-megabyte offsets. -/
def raidzColumnMapping (nparity offset_in_bytes ndevices : Nat) : List Nat :=
  let column_mapping := List.range ndevices
  if nparity = 1 ∧ (offset_in_bytes / 1048576) % 2 ≠ 0 then swap01 column_mapping
  else column_mapping

/-- Ceiling division as the source writes it inline at every call site:
`if a % b == 0 { a / b } else { a / b + 1 }`. -/
def ceilDivSrc (a b : Nat) : Nat :=
  if a % b = 0 then a / b else a / b + 1

/-- The column-major data-extraction loop of
`DataVirtualAddress::dereference_raw` (src/zio.rs lines 223-237): for each
data column (columns `nparity..ndevices`), collect every `ndevices`-th
sector chunk starting at the mapped column, and concatenate. -/
def raidzTranspose (asize ndevices nparity off : Nat) (res : List Nat) : List Nat :=
  (((List.range ndevices).drop nparity).map
    (fun column_number =>
      (stepBy ndevices ((listChunks asize res).drop
        ((raidzColumnMapping nparity off ndevices).getD column_number 0))).flatten)).flatten

/-- Number of bytes `dereference_raw` reads from the RAIDZ vdev for a
request of `size` bytes: the data sectors plus one parity sector per
stripe (src/zio.rs lines 192-207). -/
def sizeWithParity (v : VdevRaidzM) (size : Nat) : Nat :=
  (ceilDivSrc size v.asize +
    ceilDivSrc (ceilDivSrc size v.asize) (v.ndevices - v.nparity) * v.nparity) * v.asize

/-- Model of the RAIDZ branch of `DataVirtualAddress::dereference_raw`
(src/zio.rs lines 177-248).  The source routes every DVA through vdev 0
regardless of the stored vdev id; the `v` parameter is that vdev.  The
non-RAIDZ branch of the source is a plain `vdev.read` and is not modelled
here. -/
def DataVirtualAddress.dereference_raw (dva : DataVirtualAddress)
    (v : VdevRaidzM) (size : Nat) (c : SectorCache) :
    Except Unit (List Nat) × SectorCache :=
  match v.read dva.parse_offset (sizeWithParity v size) c with
  | (.error e, c1) => (.error e, c1)
  | (.ok res, c1) =>
    if size ≤ (raidzTranspose v.asize v.ndevices v.nparity dva.parse_offset res).length
    then (.ok ((raidzTranspose v.asize v.ndevices v.nparity dva.parse_offset res).take size), c1)
    else (.error (), c1)

theorem dereference_raw_ok (dva : DataVirtualAddress) (v : VdevRaidzM)
    (size : Nat) (c : SectorCache) (res : List Nat) (c1 : SectorCache)
    (h : v.read dva.parse_offset (sizeWithParity v size) c = (.ok res, c1)) :
    dva.dereference_raw v size c =
      (if size ≤ (raidzTranspose v.asize v.ndevices v.nparity dva.parse_offset res).length
       then (.ok ((raidzTranspose v.asize v.ndevices v.nparity dva.parse_offset res).take size), c1)
       else (.error (), c1)) := by
  rw [DataVirtualAddress.dereference_raw, h]

theorem listChunks_nil {α : Type} (n : Nat) : listChunks n ([] : List α) = [] := by
  rw [listChunks]

theorem listChunks_append {α : Type} (n : Nat) (hn : n ≠ 0) (a b : List α)
    (ha : a.length = n) : listChunks n (a ++ b) = a :: listChunks n b := by
  cases a with
  | nil => rw [List.length_nil] at ha; exact absurd ha.symm hn
  | cons x xs =>
    rw [List.cons_append, listChunks, dif_neg hn, ← List.cons_append,
      List.take_left' ha, List.drop_left' ha]

theorem listChunks_exact {α : Type} (n : Nat) (hn : n ≠ 0) (a : List α)
    (ha : a.length = n) : listChunks n a = [a] := by
  cases a with
  | nil => rw [List.length_nil] at ha; exact absurd ha.symm hn
  | cons x xs =>
    rw [listChunks, dif_neg hn, List.take_of_length_le (le_of_eq ha),
      List.drop_eq_nil_of_le (le_of_eq ha), listChunks_nil]

/-- Bytes a C2 leaf device returns for a whole sector: every byte tags the
device number and the per-device sector index, so the provenance of each
output byte is visible. -/
def c2DevBytes (d sector : Nat) : List Nat :=
  List.replicate 4096 (d * 100 + sector % 100)

/-- Leaf devices of the C2 scenario. -/
def c2Devices : Nat → Option (Nat → Nat → Except Unit (List Nat)) :=
  fun d => some (fun off amt => .ok (List.replicate amt (d * 100 + (off / 4096) % 100)))

/-- The C2 RAIDZ vdev: 4 devices, single parity, 4096-byte sectors. -/
def c2Vdev : VdevRaidzM :=
  { devices := c2Devices, ndevices := 4, nparity := 1, asize := 4096 }

theorem c2DevBytes_length (d s : Nat) : (c2DevBytes d s).length = 4096 := by
  rw [c2DevBytes, List.length_replicate]

theorem c2_read_sector_256 : c2Vdev.read_sector [] 256 =
    (.ok (c2DevBytes 0 64), scPut [] 256 (c2DevBytes 0 64)) := by
  rw [VdevRaidzM.read_sector, show scLookup [] 256 = none from rfl]
  simp only [c2Vdev, c2Devices, c2DevBytes]

theorem c2_read_sector_257 : c2Vdev.read_sector (scPut [] 256 (c2DevBytes 0 64)) 257 =
    (.ok (c2DevBytes 1 64),
     scPut (scPut [] 256 (c2DevBytes 0 64)) 257 (c2DevBytes 1 64)) := by
  rw [VdevRaidzM.read_sector,
    show scLookup (scPut [] 256 (c2DevBytes 0 64)) 257 = none from rfl]
  simp only [c2Vdev, c2Devices, c2DevBytes]

theorem c2_read : c2Vdev.read 1048576 8192 [] =
    (.ok (c2DevBytes 0 64 ++ c2DevBytes 1 64),
     scPut (scPut [] 256 (c2DevBytes 0 64)) 257 (c2DevBytes 1 64)) := by
  rw [VdevRaidzM.read]
  have ha : c2Vdev.asize = 4096 := rfl
  rw [if_neg (by norm_num), ha]
  norm_num
  rw [c2_read_sector_256]
  simp only [List.drop_zero, c2DevBytes_length]
  norm_num
  have h1 : c2Vdev.readLoop 1 256 1 (c2DevBytes 0 64) (scPut [] 256 (c2DevBytes 0 64)) =
      match c2Vdev.read_sector (scPut [] 256 (c2DevBytes 0 64)) 257 with
      | (.error e, c2) => (.error e, c2)
      | (.ok sec, c2) => c2Vdev.readLoop 0 256 2 (c2DevBytes 0 64 ++ sec) c2 := rfl
  have hloop : c2Vdev.readLoop 1 256 1 (c2DevBytes 0 64) (scPut [] 256 (c2DevBytes 0 64)) =
      (.ok (c2DevBytes 0 64 ++ c2DevBytes 1 64),
       scPut (scPut [] 256 (c2DevBytes 0 64)) 257 (c2DevBytes 1 64)) := by
    rw [h1, c2_read_sector_257]
    rfl
  rw [hloop]
  show (if 8192 ≤ (c2DevBytes 0 64 ++ c2DevBytes 1 64).length then
      ((Except.ok ((c2DevBytes 0 64 ++ c2DevBytes 1 64).take 8192) : Except Unit (List Nat)),
        scPut (scPut [] 256 (c2DevBytes 0 64)) 257 (c2DevBytes 1 64))
    else (Except.error (), scPut (scPut [] 256 (c2DevBytes 0 64)) 257 (c2DevBytes 1 64))) = _
  rw [if_pos (by simp only [List.length_append, c2DevBytes_length]; norm_num),
    List.take_of_length_le (by simp only [List.length_append, c2DevBytes_length]; norm_num)]

theorem c2_dereference_raw :
    ((DataVirtualAddress.from 0 1048576 false).dereference_raw c2Vdev 4096 []).1 =
      .ok (c2DevBytes 0 64) := by
  have hc : c2Vdev.read (DataVirtualAddress.from 0 1048576 false).parse_offset
      (sizeWithParity c2Vdev 4096) [] =
      (.ok (c2DevBytes 0 64 ++ c2DevBytes 1 64),
       scPut (scPut [] 256 (c2DevBytes 0 64)) 257 (c2DevBytes 1 64)) := c2_read
  rw [dereference_raw_ok _ _ _ _ _ _ hc]
  have hT : raidzTranspose c2Vdev.asize c2Vdev.ndevices c2Vdev.nparity
      (DataVirtualAddress.from 0 1048576 false).parse_offset
      (c2DevBytes 0 64 ++ c2DevBytes 1 64) = c2DevBytes 0 64 := by
    have hmap : raidzColumnMapping 1 1048576 4 = [1, 0, 2, 3] := by decide
    have hchunks : listChunks 4096 (c2DevBytes 0 64 ++ c2DevBytes 1 64) =
        [c2DevBytes 0 64, c2DevBytes 1 64] := by
      rw [listChunks_append 4096 (by norm_num) _ _ (c2DevBytes_length 0 64),
        listChunks_exact 4096 (by norm_num) _ (c2DevBytes_length 1 64)]
    have hrange : ((List.range 4).drop 1) = [1, 2, 3] := by decide
    show raidzTranspose 4096 4 1 1048576 (c2DevBytes 0 64 ++ c2DevBytes 1 64) =
      c2DevBytes 0 64
    rw [raidzTranspose, hmap, hchunks, hrange]
    simp only [List.map_cons, List.map_nil]
    rw [show (([1, 0, 2, 3] : List Nat).getD 1 0) = 0 from rfl,
      show (([1, 0, 2, 3] : List Nat).getD 2 0) = 2 from rfl,
      show (([1, 0, 2, 3] : List Nat).getD 3 0) = 3 from rfl,
      List.drop_zero,
      show ([c2DevBytes 0 64, c2DevBytes 1 64].drop 2) = [] from rfl,
      show (([c2DevBytes 0 64, c2DevBytes 1 64] : List (List Nat)).drop 3) = [] from rfl]
    rw [stepBy_pair, stepBy]
    simp only [List.flatten_cons, List.flatten_nil, List.append_nil]
  rw [hT, if_pos (le_of_eq (c2DevBytes_length 0 64).symm),
    List.take_of_length_le (le_of_eq (c2DevBytes_length 0 64))]

/-- C2: for a single-parity RAIDZ vdev, dereferencing a DVA at byte offset
o swaps columns 0 and 1 of the column-to-device mapping exactly when
floor(o / 1 MiB) is odd; with N=4, P=1, A=4096 and o = 0x10_0000 the
mapping is [1,0,2,3] and the data returned is exactly the sector read from
device 0 at per-device sector 64, not the one from device 1. -/
theorem C2_raidz_parity_rotation :
    (∀ offset_in_bytes ndevices : Nat,
      raidzColumnMapping 1 offset_in_bytes ndevices =
        if (offset_in_bytes / 1048576) % 2 = 1 then swap01 (List.range ndevices)
        else List.range ndevices) ∧
    raidzColumnMapping 1 1048576 4 = [1, 0, 2, 3] ∧
    ((DataVirtualAddress.from 0 1048576 false).dereference_raw c2Vdev 4096 []).1 =
      .ok (c2DevBytes 0 64) ∧
    c2DevBytes 0 64 ≠ c2DevBytes 1 64 := by
  refine ⟨?_, by decide, c2_dereference_raw, by decide⟩
  intro o n
  rcases Nat.mod_two_eq_zero_or_one (o / 1048576) with h | h <;>
    simp [raidzColumnMapping, h]

/-! ## Vdev labels and uberblocks (src/lib.rs lines 505-605, src/main.rs
lines 263-346, 418-443) -/

structure VdevLabel where
  name_value_pairs_raw : List Nat
  uberblocks_raw : List Nat
  uberblock_size : Option Nat

/-- Model of `VdevLabel::from_bytes`: bytes 16 KiB..128 KiB hold the XDR
name/value pairs, bytes 128 KiB.. hold the uberblock ring; the slot size
is not yet known. -/
def VdevLabel.from_bytes (data : List Nat) : VdevLabel :=
  { name_value_pairs_raw := (data.take 131072).drop 16384
    uberblocks_raw := data.drop 131072
    uberblock_size := none }

/-- Model of `set_raw_uberblock_size` (the source panics when the size was
already set; the walker sets it exactly once). -/
def VdevLabel.set_raw_uberblock_size (l : VdevLabel) (n : Nat) : VdevLabel :=
  { l with uberblock_size := some n }

/-- Model of `get_raw_uberblock_size` (the source panics when the size is
unset; every use in the walker follows the single set). -/
def VdevLabel.get_raw_uberblock_size (l : VdevLabel) : Nat :=
  l.uberblock_size.getD 0

/-- Model of `get_raw_uberblock_count`. -/
def VdevLabel.get_raw_uberblock_count (l : VdevLabel) : Nat :=
  l.uberblocks_raw.length / l.get_raw_uberblock_size

/-- Model of `get_raw_uberblock`: the slot byte range
`index*size..(index+1)*size` (the source panics past the end; the walker
only indexes below the count). -/
def VdevLabel.get_raw_uberblock (l : VdevLabel) (index : Nat) : List Nat :=
  (l.uberblocks_raw.drop (index * l.get_raw_uberblock_size)).take
    l.get_raw_uberblock_size

structure Uberblock where
  version : Nat
  txg : Nat
  guid_sum : Nat
  timestamp : Nat
  rootbp : BlockPointer

/-- The uberblock magic number 0x00bab10c. -/
def UBERBLOCK_MAGIC : Nat := 12235020

/-- Model of `Uberblock::from_bytes_le` (identical in src/lib.rs lines
566-583 and src/main.rs lines 313-331): magic, version, txg, guid sum,
timestamp, then the root block pointer. -/
def Uberblock.from_bytes_le (data : List Nat) : Option Uberblock := do
  let (magic, data) ← readU64LE data
  if magic ≠ UBERBLOCK_MAGIC then none
  else do
    let (version, data) ← readU64LE data
    let (txg, data) ← readU64LE data
    let (guid_sum, data) ← readU64LE data
    let (timestamp, data) ← readU64LE data
    let rootbp ← BlockPointer.from_bytes_le data
    some { version := version, txg := txg, guid_sum := guid_sum
           timestamp := timestamp, rootbp := rootbp }

/-- Outcome of the endianness-invariant uberblock load: a parse, a silent
rejection (`None` in the source), or the explicit
`todo!("Implement big endian support!")` halt that announces an
unimplemented big-endian layout. -/
inductive UbParseResult where
  | parsed : Uberblock → UbParseResult
  | invalid : UbParseResult
  | bigEndianHalt : UbParseResult

/-- Model of `Uberblock::from_bytes` of src/main.rs lines 334-345: the
little-endian probe uses `read_u64_le`, the big-endian probe uses
`read_u64_be`, so a big-endian uberblock is detected and halts with the
explicit unimplemented error. -/
def Uberblock.from_bytes_main (data : List Nat) : UbParseResult :=
  match readU64LE data, readU64BE data with
  | some (ub_magic_le, _), some (ub_magic_be, _) =>
    if ub_magic_le = UBERBLOCK_MAGIC then
      match Uberblock.from_bytes_le data with
      | some ub => .parsed ub
      | none => .invalid
    else if ub_magic_be = UBERBLOCK_MAGIC then .bigEndianHalt
    else .invalid
  | _, _ => .invalid

/-- Model of `Uberblock::from_bytes` of src/lib.rs lines 590-605: both
probes use `u64::from_bytes_le`, so `ub_magic_be` equals `ub_magic_le` and
the big-endian branch is unreachable. -/
def Uberblock.from_bytes_lib (data : List Nat) : UbParseResult :=
  match readU64LE data with
  | none => .invalid
  | some (ub_magic_le, _) =>
    match readU64LE data with
    | none => .invalid
    | some (ub_magic_be, _) =>
      if ub_magic_le = UBERBLOCK_MAGIC then
        match Uberblock.from_bytes_le data with
        | some ub => .parsed ub
        | none => .invalid
      else if ub_magic_be = UBERBLOCK_MAGIC then .bigEndianHalt
      else .invalid

/-- The uberblock collection loop of src/main.rs lines 420-426 over a list
of slots: valid slots are kept in order, invalid slots are skipped, and a
big-endian slot halts the program (modelled as `none`). -/
def collectUberblocksGo : List (List Nat) → Option (List Uberblock)
  | [] => some []
  | slot :: rest =>
    match Uberblock.from_bytes_main slot with
    | .parsed ub => (collectUberblocksGo rest).map (fun l => ub :: l)
    | .invalid => collectUberblocksGo rest
    | .bigEndianHalt => none

/-- All uberblocks of a label, in slot order. -/
def collectUberblocks (label : VdevLabel) : Option (List Uberblock) :=
  collectUberblocksGo
    ((List.range label.get_raw_uberblock_count).map label.get_raw_uberblock)

/-- Model of the active-uberblock selection of src/main.rs lines 429-441:
sort ascending by TXG, then walk from the highest TXG down and pick the
first whose root block pointer dereferences (the `derefOk` oracle stands
for `ub.rootbp.dereference(&mut vdevs).is_ok()`). -/
def selectActiveUberblock (ubs : List Uberblock) (derefOk : Uberblock → Bool) :
    Option Uberblock :=
  ((ubs.mergeSort (fun a b => decide (a.txg ≤ b.txg))).reverse).find? derefOk

theorem collectUberblocksGo_mem (slots : List (List Nat)) (ubs : List Uberblock)
    (h : collectUberblocksGo slots = some ubs) :
    ∀ ub ∈ ubs, ∃ slot ∈ slots, Uberblock.from_bytes_main slot = .parsed ub := by
  induction slots generalizing ubs with
  | nil =>
    simp only [collectUberblocksGo, Option.some.injEq] at h
    subst h
    intro ub hm
    simp at hm
  | cons slot rest ih =>
    rw [collectUberblocksGo] at h
    split at h
    · rename_i ub0 hp
      rcases hr : collectUberblocksGo rest with _ | ubs0
      · rw [hr] at h
        simp at h
      · rw [hr] at h
        simp only [Option.map_some', Option.some.injEq] at h
        subst h
        intro ub hm
        rcases List.mem_cons.mp hm with rfl | hm2
        · exact ⟨slot, List.mem_cons_self _ _, hp⟩
        · obtain ⟨s, hs, hps⟩ := ih ubs0 hr ub hm2
          exact ⟨s, List.mem_cons_of_mem _ hs, hps⟩
    · rename_i hp
      intro ub hm
      obtain ⟨s, hs, hps⟩ := ih ubs h ub hm
      exact ⟨s, List.mem_cons_of_mem _ hs, hps⟩
    · exact absurd h (by simp)

theorem selectActiveUberblock_spec (ubs : List Uberblock)
    (derefOk : Uberblock → Bool) (u : Uberblock)
    (h : selectActiveUberblock ubs derefOk = some u) :
    derefOk u = true ∧ u ∈ ubs ∧
      ∀ v ∈ ubs, derefOk v = true → v.txg ≤ u.txg := by
  have hperm := List.mergeSort_perm ubs (fun a b => decide (a.txg ≤ b.txg))
  have hsorted := @List.sorted_mergeSort Uberblock
    (fun a b : Uberblock => decide (a.txg ≤ b.txg))
    (fun a b c hab hbc => by
      simp only [decide_eq_true_eq] at hab hbc ⊢
      omega)
    (fun a b => by
      simp only [Bool.or_eq_true, decide_eq_true_eq]
      omega)
    ubs
  rw [selectActiveUberblock] at h
  obtain ⟨hpu, as, bs, hsplit, hbefore⟩ := List.find?_eq_some.mp h
  have hmem : u ∈ (ubs.mergeSort (fun a b => decide (a.txg ≤ b.txg))).reverse := by
    rw [hsplit]
    exact List.mem_append_right _ (List.mem_cons_self _ _)
  refine ⟨hpu, ?_, ?_⟩
  · exact hperm.mem_iff.mp (List.mem_reverse.mp hmem)
  · intro v hv hdv
    have hrev : List.Pairwise (fun a b : Uberblock => decide (b.txg ≤ a.txg) = true)
        (ubs.mergeSort (fun a b => decide (a.txg ≤ b.txg))).reverse := by
      rw [List.pairwise_reverse]
      exact hsorted
    rw [hsplit] at hrev
    have hvmem : v ∈ as ++ u :: bs := by
      rw [← hsplit]
      exact List.mem_reverse.mpr (hperm.mem_iff.mpr hv)
    rcases List.mem_append.mp hvmem with hva | hvb
    · have := hbefore v hva
      rw [hdv] at this
      simp at this
    · rcases List.mem_cons.mp hvb with rfl | hvbs
      · exact Nat.le_refl _
      · have hpair := (List.pairwise_append.mp hrev).2.1
        have := (List.pairwise_cons.mp hpair).1 v hvbs
        simpa using this

/-- A 256 KiB all-zero label with the slot size fixed by ashift=12, as the
walker sets it (src/main.rs lines 416-418). -/
def c3ZeroLabel : VdevLabel :=
  (VdevLabel.from_bytes (List.replicate 262144 0)).set_raw_uberblock_size 4096

theorem collectUberblocksGo_all_invalid (slots : List (List Nat))
    (h : ∀ s ∈ slots, Uberblock.from_bytes_main s = .invalid) :
    collectUberblocksGo slots = some [] := by
  induction slots with
  | nil => rfl
  | cons slot rest ih =>
    rw [collectUberblocksGo, h slot (List.mem_cons_self _ _)]
    exact ih (fun s hs => h s (List.mem_cons_of_mem _ hs))

theorem ub_main_zero_slot :
    Uberblock.from_bytes_main (List.replicate 4096 0) = .invalid := by
  rw [show (4096 : Nat) = 8 + 4088 from rfl, List.replicate_add]
  rfl

theorem label_count_32 (data : List Nat) (hlen : data.length = 262144) :
    ((VdevLabel.from_bytes data).set_raw_uberblock_size 4096).get_raw_uberblock_count =
      32 := by
  show ((VdevLabel.from_bytes data).set_raw_uberblock_size 4096).uberblocks_raw.length /
      ((VdevLabel.from_bytes data).set_raw_uberblock_size 4096).get_raw_uberblock_size = 32
  have h1 : ((VdevLabel.from_bytes data).set_raw_uberblock_size 4096).uberblocks_raw =
      data.drop 131072 := rfl
  have h2 : ((VdevLabel.from_bytes data).set_raw_uberblock_size 4096).get_raw_uberblock_size =
      4096 := rfl
  rw [h1, h2, List.length_drop, hlen]

theorem label_slot_of_ring_replicate (data : List Nat) (i a : Nat) (hi : i < 32)
    (hdata : data.drop 131072 = List.replicate 131072 a) :
    ((VdevLabel.from_bytes data).set_raw_uberblock_size 4096).get_raw_uberblock i =
      List.replicate 4096 a := by
  show (((VdevLabel.from_bytes data).set_raw_uberblock_size 4096).uberblocks_raw.drop
      (i * ((VdevLabel.from_bytes data).set_raw_uberblock_size 4096).get_raw_uberblock_size)).take
      ((VdevLabel.from_bytes data).set_raw_uberblock_size 4096).get_raw_uberblock_size =
      List.replicate 4096 a
  have h1 : ((VdevLabel.from_bytes data).set_raw_uberblock_size 4096).uberblocks_raw =
      data.drop 131072 := rfl
  have h2 : ((VdevLabel.from_bytes data).set_raw_uberblock_size 4096).get_raw_uberblock_size =
      4096 := rfl
  rw [h1, h2, hdata, List.drop_replicate, List.take_replicate]
  congr 1
  omega

theorem c3_zero_ring : (List.replicate 262144 0).drop 131072 =
    List.replicate 131072 (0 : Nat) := by
  rw [List.drop_replicate]

theorem c3ZeroLabel_count : c3ZeroLabel.get_raw_uberblock_count = 32 :=
  label_count_32 (List.replicate 262144 0) (List.length_replicate 262144 0)

theorem c3ZeroLabel_slot (i : Nat) (hi : i < 32) :
    c3ZeroLabel.get_raw_uberblock i = List.replicate 4096 0 :=
  label_slot_of_ring_replicate (List.replicate 262144 0) i 0 hi c3_zero_ring

theorem c3ZeroLabel_collect : collectUberblocks c3ZeroLabel = some [] := by
  rw [collectUberblocks, c3ZeroLabel_count]
  refine collectUberblocksGo_all_invalid _ ?_
  intro s hs
  obtain ⟨i, hi, heq⟩ := List.mem_map.mp hs
  rw [← heq, c3ZeroLabel_slot i (List.mem_range.mp hi)]
  exact ub_main_zero_slot

/-- C3 counterexample: with ashift=12 the 128 KiB uberblock ring of a
256 KiB label holds 32 slots of 4096 bytes, not 128. -/
theorem C3_slot_count_refuted :
    c3ZeroLabel.get_raw_uberblock_count = 32 ∧
    c3ZeroLabel.get_raw_uberblock_count ≠ 128 := by
  rw [c3ZeroLabel_count]
  exact ⟨rfl, by norm_num⟩

/-- C3 (amended): a 256 KiB label whose configuration carries ashift=12
yields 32 uberblock slots of 4096 bytes (128 KiB ring over 2^12-byte
slots); every collected uberblock comes from a slot that parsed with the
0x00bab10c magic, and the walker selects an uberblock whose root pointer
dereferences and whose TXG is maximal among all such collected
uberblocks. -/
theorem C3_uberblock_ring_walk (data : List Nat) (hlen : data.length = 262144)
    (label : VdevLabel)
    (hl : label = (VdevLabel.from_bytes data).set_raw_uberblock_size 4096)
    (ubs : List Uberblock) (hu : collectUberblocks label = some ubs)
    (derefOk : Uberblock → Bool) :
    label.get_raw_uberblock_count = 32 ∧
    (∀ ub ∈ ubs, ∃ i < 32,
      Uberblock.from_bytes_main (label.get_raw_uberblock i) = .parsed ub) ∧
    ∀ u, selectActiveUberblock ubs derefOk = some u →
      derefOk u = true ∧ u ∈ ubs ∧ ∀ v ∈ ubs, derefOk v = true → v.txg ≤ u.txg := by
  have hcount : label.get_raw_uberblock_count = 32 := by
    subst hl
    exact label_count_32 data hlen
  refine ⟨hcount, ?_, fun u hsel => selectActiveUberblock_spec ubs derefOk u hsel⟩
  intro ub hm
  obtain ⟨slot, hs, hp⟩ := collectUberblocksGo_mem _ ubs hu ub hm
  obtain ⟨i, hi, heq⟩ := List.mem_map.mp hs
  refine ⟨i, ?_, by rw [heq]; exact hp⟩
  have := List.mem_range.mp hi
  omega

/-- Witness for C3 at the all-zero 256 KiB label: all hypotheses hold and
the conclusion follows from the theorem. -/
theorem C3_uberblock_ring_walk_witness :
    (List.replicate (262144 : Nat) (0 : Nat)).length = 262144 ∧
    collectUberblocks c3ZeroLabel = some [] ∧
    (c3ZeroLabel.get_raw_uberblock_count = 32 ∧
     (∀ ub ∈ ([] : List Uberblock), ∃ i < 32,
       Uberblock.from_bytes_main (c3ZeroLabel.get_raw_uberblock i) = .parsed ub) ∧
     ∀ u, selectActiveUberblock [] (fun _ => true) = some u →
       (fun _ => true) u = true ∧ u ∈ ([] : List Uberblock) ∧
         ∀ v ∈ ([] : List Uberblock), (fun _ => true) v = true → v.txg ≤ u.txg) :=
  ⟨List.length_replicate 262144 0,
   c3ZeroLabel_collect,
   C3_uberblock_ring_walk (List.replicate 262144 0) (List.length_replicate 262144 0)
     c3ZeroLabel rfl [] c3ZeroLabel_collect (fun _ => true)⟩

/-- The first eight bytes of an uberblock slot whose magic is 0x00bab10c
in big-endian byte order. -/
def c8BigEndianSlot : List Nat := [0, 0, 0, 0, 0, 186, 177, 12]

/-- C8 (code bug evidence): the main.rs loader reads the big-endian probe
with read_u64_be and halts with the explicit unimplemented error on a
big-endian uberblock, as the spec says; the lib.rs loader reads both
probes with from_bytes_le, silently returns None on the same bytes, and
can never reach its big-endian branch on any input. -/
theorem C8_lib_loader_misses_bigendian :
    Uberblock.from_bytes_main c8BigEndianSlot = .bigEndianHalt ∧
    Uberblock.from_bytes_lib c8BigEndianSlot = .invalid ∧
    ∀ data : List Nat, Uberblock.from_bytes_lib data ≠ .bigEndianHalt := by
  refine ⟨rfl, rfl, ?_⟩
  intro data h
  rw [Uberblock.from_bytes_lib] at h
  split at h
  · exact UbParseResult.noConfusion h
  · rename_i m rest heq1
    split at h
    · exact UbParseResult.noConfusion h
    · rename_i m2 rest2 heq2
      simp only [Option.some.injEq, Prod.mk.injEq] at heq2
      obtain ⟨rfl, rfl⟩ := heq2
      by_cases hm : m = UBERBLOCK_MAGIC
      · rw [if_pos hm] at h
        rcases hfb : Uberblock.from_bytes_le data with _ | ub <;> rw [hfb] at h <;>
          exact UbParseResult.noConfusion h
      · rw [if_neg hm, if_neg hm] at h
        exact UbParseResult.noConfusion h

/-! ## DNode reads (src/dmu.rs lines 160-417)

A DNode owns up to three block pointers and the parameters of its
indirect-block tree.  `BlockPointer::dereference(vdevs)` is abstracted by
the `derefBP` state-passing function, and in `read` the call
`self.read_block(id, vdevs)` by the `readBlock` function. -/

structure DNodeBase where
  indirect_blocksize_log2 : Nat
  n_indirect_levels : Nat
  checksum_method : ChecksumMethod
  compression_method : CompressionMethod
  data_blocksize_in_sectors : Nat
  num_slots : Nat
  max_indirect_block_id : Nat
  total_allocated : Nat
  total_allocated_is_in_bytes : Bool
  block_pointers : List BlockPointer
  bonus_data : List Nat

structure IndirectBlockTag where
  parent_id : Nat
  offset : Nat

/-- Data block size in bytes (stored in 512-byte sectors). -/
def DNodeBase.parse_data_block_size (dn : DNodeBase) : Nat :=
  dn.data_blocksize_in_sectors * 512

/-- Indirect block size in bytes (two to the stored shift). -/
def DNodeBase.parse_indirect_block_size (dn : DNodeBase) : Nat :=
  2 ^ dn.indirect_blocksize_log2

/-- Model of `next_level_id_and_offset`. -/
def DNodeBase.next_level_id_and_offset (dn : DNodeBase)
    (current_level_id blocks_per_indirect_block : Nat) : IndirectBlockTag :=
  { parent_id := current_level_id / blocks_per_indirect_block
    offset := current_level_id % blocks_per_indirect_block }

/-- Model of `get_data_size`. -/
def DNodeBase.get_data_size (dn : DNodeBase) : Nat :=
  (dn.max_indirect_block_id + 1) * dn.parse_data_block_size

/-- The `for level in 1..=n_indirect_levels` tag-building loop of
`read_block` (src/dmu.rs lines 342-358), accumulating tags in push order;
`fuel` counts the remaining iterations. -/
def buildLevelsGo (dn : DNodeBase) (bpib block_id : Nat) :
    Nat → Nat → List IndirectBlockTag → List IndirectBlockTag
  | _, 0, levels => levels
  | level, fuel + 1, levels =>
    let actual_id := if level = 1 then block_id
      else ((levels.getLast?).map IndirectBlockTag.parent_id).getD 0
    let actual_bpib := if level = dn.n_indirect_levels then dn.block_pointers.length
      else bpib
    buildLevelsGo dn bpib block_id (level + 1) fuel
      (levels ++ [dn.next_level_id_and_offset actual_id actual_bpib])

/-- The descent half of `read_block` (src/dmu.rs lines 360-378): pop tags
from the top of the tree, extracting the next block pointer from each
indirect block, and finally check the data block has exactly the declared
data block size (the source asserts this). -/
def readBlockDescend {σ : Type} (derefBP : BlockPointer → σ → Except Unit (List Nat) × σ)
    (dbs : Nat) : BlockPointer → List IndirectBlockTag → σ → Except Unit (List Nat) × σ
  | bp, [], s =>
    match derefBP bp s with
    | (.error e, s2) => (.error e, s2)
    | (.ok block_data, s2) =>
      if block_data.length = dbs then (.ok block_data, s2) else (.error (), s2)
  | bp, tag :: rest, s =>
    match derefBP bp s with
    | (.error e, s2) => (.error e, s2)
    | (.ok indirect_block_data, s2) =>
      match skipNBytes (BlockPointer.get_ondisk_size * tag.offset) indirect_block_data with
      | none => (.error (), s2)
      | some tail =>
        match BlockPointer.from_bytes_le tail with
        | none => (.error (), s2)
        | some next_bp => readBlockDescend derefBP dbs next_bp rest s2

/-- Model of `DNodeBase::read_block` (src/dmu.rs lines 337-379): ids past
the max indirect block id fail immediately; then the tag stack is built
and the tree descended. -/
def DNodeBase.read_block {σ : Type} (dn : DNodeBase)
    (derefBP : BlockPointer → σ → Except Unit (List Nat) × σ)
    (block_id : Nat) (s : σ) : Except Unit (List Nat) × σ :=
  if dn.max_indirect_block_id < block_id then (.error (), s)
  else if dn.n_indirect_levels < 1 then (.error (), s)
  else
    let blocks_per_indirect_block :=
      dn.parse_indirect_block_size / BlockPointer.get_ondisk_size
    let levels := buildLevelsGo dn blocks_per_indirect_block block_id 1
      dn.n_indirect_levels []
    match levels.reverse with
    | [] => (.error (), s)
    | top_level :: restPop =>
      match dn.block_pointers.get? top_level.offset with
      | none => (.error (), s)
      | some bp0 => readBlockDescend derefBP dn.parse_data_block_size bp0 restPop s

/-- The `for block_index in 1..=blocks_to_read` loop of `DNodeBase::read`. -/
def dnodeReadLoop {σ : Type} (readBlock : Nat → σ → Except Unit (List Nat) × σ)
    (first_data_block_index : Nat) :
    Nat → Nat → List Nat → σ → Except Unit (List Nat) × σ
  | 0, _, acc, s => (.ok acc, s)
  | k + 1, i, acc, s =>
    match readBlock (first_data_block_index + i) s with
    | (.error e, s2) => (.error e, s2)
    | (.ok b, s2) => dnodeReadLoop readBlock first_data_block_index k (i + 1) (acc ++ b) s2

/-- Model of `DNodeBase::read` (src/dmu.rs lines 381-408): reading zero
bytes always succeeds; otherwise read the block containing `offset`, skip
the in-block offset, read whole blocks until the request is covered, and
truncate to `size`. -/
def DNodeBase.read {σ : Type} (dn : DNodeBase)
    (readBlock : Nat → σ → Except Unit (List Nat) × σ) (offset size : Nat) (s : σ) :
    Except Unit (List Nat) × σ :=
  if size = 0 then (.ok [], s)
  else
    match readBlock (offset / dn.parse_data_block_size) s with
    | (.error e, s1) => (.error e, s1)
    | (.ok first_data_block, s1) =>
      if size ≤ (first_data_block.drop (offset % dn.parse_data_block_size)).length then
        (.ok ((first_data_block.drop (offset % dn.parse_data_block_size)).take size), s1)
      else
        match dnodeReadLoop readBlock (offset / dn.parse_data_block_size)
            (ceilDivSrc
              (size - (first_data_block.drop (offset % dn.parse_data_block_size)).length)
              dn.parse_data_block_size) 1
            (first_data_block.drop (offset % dn.parse_data_block_size)) s1 with
        | (.error e, s2) => (.error e, s2)
        | (.ok res, s2) =>
          if size ≤ res.length then (.ok (res.take size), s2) else (.error (), s2)

theorem dnodeReadLoop_ok {σ : Type} (readBlock : Nat → σ → Except Unit (List Nat) × σ)
    (pureF : Nat → Except Unit (List Nat))
    (hpure : ∀ i s, (readBlock i s).1 = pureF i) (fIdx : Nat) :
    ∀ (k i : Nat) (acc : List Nat) (s : σ) (v : List Nat) (s2 : σ),
      dnodeReadLoop readBlock fIdx k i acc s = (.ok v, s2) →
      ∃ bs : List (List Nat), bs.length = k ∧
        (∀ j, j < k → pureF (fIdx + (i + j)) = .ok (bs.getD j [])) ∧
        v = acc ++ bs.flatten := by
  intro k
  induction k with
  | zero =>
    intro i acc s v s2 h
    rw [dnodeReadLoop] at h
    simp only [Prod.mk.injEq, Except.ok.injEq] at h
    obtain ⟨rfl, -⟩ := h
    exact ⟨[], rfl, by omega, by simp⟩
  | succ k ih =>
    intro i acc s v s2 h
    rw [dnodeReadLoop] at h
    split at h
    · exact absurd h (by simp)
    · rename_i b sb hb
      obtain ⟨bs, hlen, hread, hv⟩ := ih (i + 1) (acc ++ b) sb v s2 h
      refine ⟨b :: bs, by simp [hlen], ?_, by simp [hv]⟩
      intro j hj
      cases j with
      | zero =>
        have := hpure (fIdx + i) s
        rw [hb] at this
        simpa using this.symm
      | succ j2 =>
        have := hread j2 (by omega)
        have harith : fIdx + (i + 1 + j2) = fIdx + (i + (j2 + 1)) := by omega
        rw [harith] at this
        simpa using this

/-- C10: for every DNode and every block id greater than the DNode's max
indirect block id, read_block returns an error immediately: the state is
returned untouched and the result does not depend on the dereference
function, so no block pointer is dereferenced and no device is read. -/
theorem C10_read_block_guard {σ : Type} (dn : DNodeBase)
    (derefBP : BlockPointer → σ → Except Unit (List Nat) × σ) (block_id : Nat) (s : σ)
    (h : dn.max_indirect_block_id < block_id) :
    dn.read_block derefBP block_id s = (.error (), s) := by
  rw [DNodeBase.read_block, if_pos h]

/-- A one-level, one-block DNode used as the C10 witness input. -/
def c10DNode : DNodeBase :=
  { indirect_blocksize_log2 := 14
    n_indirect_levels := 1
    checksum_method := ChecksumMethod.Fletcher4
    compression_method := CompressionMethod.Lz4
    data_blocksize_in_sectors := 1
    num_slots := 1
    max_indirect_block_id := 0
    total_allocated := 512
    total_allocated_is_in_bytes := true
    block_pointers := []
    bonus_data := [] }

/-- Witness for C10: block id 1 exceeds the max indirect block id 0 and
read_block fails without touching the state. -/
theorem C10_read_block_guard_witness :
    c10DNode.max_indirect_block_id < 1 ∧
    c10DNode.read_block (σ := Unit) (fun _ s => (.error (), s)) 1 () = (.error (), ()) :=
  ⟨by decide, C10_read_block_guard c10DNode (fun _ s => (.error (), s)) 1 () (by decide)⟩

/-- C7: reading zero bytes from a DNode always succeeds with an empty
result; for a positive size, every successful read returns exactly `size`
bytes, obtained by reading the data block containing `offset`, dropping
the in-block offset, appending ceil(remaining / data-block-size) further
whole blocks in order, and truncating the concatenation to `size`.  The
`readBlock` argument stands for `self.read_block(id, vdevs)`; `pureF`
abstracts its value, which the block cache keeps state-independent. -/
theorem C7_dnode_read_shape {σ : Type} (dn : DNodeBase)
    (readBlock : Nat → σ → Except Unit (List Nat) × σ)
    (pureF : Nat → Except Unit (List Nat))
    (hpure : ∀ i s, (readBlock i s).1 = pureF i)
    (offset size : Nat) (s : σ) :
    (∀ s2 : σ, dn.read readBlock offset 0 s2 = (.ok [], s2)) ∧
    (0 < size → ∀ (v : List Nat) (s2 : σ),
      dn.read readBlock offset size s = (.ok v, s2) →
      v.length = size ∧
      ∃ b0, pureF (offset / dn.parse_data_block_size) = .ok b0 ∧
      ∃ bs : List (List Nat),
        bs.length = (if size ≤ (b0.drop (offset % dn.parse_data_block_size)).length then 0
          else ceilDivSrc (size - (b0.drop (offset % dn.parse_data_block_size)).length)
            dn.parse_data_block_size) ∧
        (∀ j, j < bs.length →
          pureF (offset / dn.parse_data_block_size + (1 + j)) = .ok (bs.getD j [])) ∧
        v = ((b0.drop (offset % dn.parse_data_block_size)) ++ bs.flatten).take size) := by
  constructor
  · intro s2
    rw [DNodeBase.read, if_pos rfl]
  · intro hsz v s2 hok
    rw [DNodeBase.read, if_neg (by omega)] at hok
    split at hok
    · exact absurd hok (by simp)
    · rename_i fb s1 hfb
      have hb0 : pureF (offset / dn.parse_data_block_size) = .ok fb := by
        have := hpure (offset / dn.parse_data_block_size) s
        rw [hfb] at this
        exact this.symm
      split at hok
      · rename_i hle
        simp only [Prod.mk.injEq, Except.ok.injEq] at hok
        obtain ⟨rfl, -⟩ := hok
        refine ⟨?_, fb, hb0, [], by rw [List.length_nil, if_pos hle], ?_, by simp⟩
        · rw [List.length_take]
          omega
        · intro j hj
          simp at hj
      · rename_i hgt
        split at hok
        · exact absurd hok (by simp)
        · rename_i res s3 hloop
          obtain ⟨bs, hlen, hread, hv⟩ :=
            dnodeReadLoop_ok readBlock pureF hpure (offset / dn.parse_data_block_size)
              _ 1 _ s1 res s3 hloop
          split at hok
          · rename_i hle2
            simp only [Prod.mk.injEq, Except.ok.injEq] at hok
            obtain ⟨rfl, -⟩ := hok
            refine ⟨?_, fb, hb0, bs, ?_, ?_, ?_⟩
            · rw [List.length_take]
              omega
            · rw [if_neg hgt]
              exact hlen
            · intro j hj
              rw [hlen] at hj
              exact hread j hj
            · rw [hv]
          · exact absurd hok (by simp)

/-- Block contents for the C7 witness: block i is 512 bytes of value
i mod 256. -/
def c7PureF : Nat → Except Unit (List Nat) := fun i => .ok (List.replicate 512 (i % 256))

/-- Stateless read-block function for the C7 witness. -/
def c7ReadBlock : Nat → Unit → Except Unit (List Nat) × Unit := fun i s => (c7PureF i, s)

/-- A flat DNode with 512-byte data blocks for the C7 witness. -/
def c7DNode : DNodeBase :=
  { indirect_blocksize_log2 := 14
    n_indirect_levels := 1
    checksum_method := ChecksumMethod.Fletcher4
    compression_method := CompressionMethod.Off
    data_blocksize_in_sectors := 1
    num_slots := 1
    max_indirect_block_id := 10
    total_allocated := 512
    total_allocated_is_in_bytes := true
    block_pointers := []
    bonus_data := [] }

/-- Witness for C7 at offset 100, size 1000 over the witness DNode. -/
theorem C7_dnode_read_shape_witness :
    (∀ (i : Nat) (s : Unit), (c7ReadBlock i s).1 = c7PureF i) ∧
    ((∀ s2 : Unit, c7DNode.read c7ReadBlock 100 0 s2 = (.ok [], s2)) ∧
     (0 < 1000 → ∀ (v : List Nat) (s2 : Unit),
       c7DNode.read c7ReadBlock 100 1000 () = (.ok v, s2) →
       v.length = 1000 ∧
       ∃ b0, c7PureF (100 / c7DNode.parse_data_block_size) = .ok b0 ∧
       ∃ bs : List (List Nat),
         bs.length = (if 1000 ≤ (b0.drop (100 % c7DNode.parse_data_block_size)).length then 0
           else ceilDivSrc (1000 - (b0.drop (100 % c7DNode.parse_data_block_size)).length)
             c7DNode.parse_data_block_size) ∧
         (∀ j, j < bs.length →
           c7PureF (100 / c7DNode.parse_data_block_size + (1 + j)) = .ok (bs.getD j [])) ∧
         v = ((b0.drop (100 % c7DNode.parse_data_block_size)) ++ bs.flatten).take 1000)) :=
  ⟨fun i s => rfl,
   C7_dnode_read_shape c7DNode c7ReadBlock c7PureF (fun i s => rfl) 100 1000 ()⟩
/-! ## YOLO convolution mask (src/yolo_block_recovery.rs) -/

/-- The `for index in 0..` loop of `calculate_convolution_vector_for_block`
(src/yolo_block_recovery.rs lines 38-54): walk column indices, pushing
`false` for parity columns and `true` for data columns, decrementing the
remaining data-sector count at each data column and stopping once it
reaches zero.  A data column met with `rem = 0` models the `usize`
underflow panic of `psize -= 1`; the fuel argument bounds the unbounded
`0..` iterator and is chosen by the caller to exceed the loop's running
time. -/
def convMaskGo (cm : List Nat) (N p : Nat) : Nat → Nat → Nat → Option (List Bool)
  | 0, _, _ => none
  | fuel + 1, index, rem =>
    if cm.getD (index % N) 0 < p then
      (convMaskGo cm N p fuel (index + 1) rem).map (fun res => false :: res)
    else if rem = 0 then none
    else if rem = 1 then some [true]
    else (convMaskGo cm N p fuel (index + 1) (rem - 1)).map (fun res => true :: res)

/-- Model of `calculate_convolution_vector_for_block`
(src/yolo_block_recovery.rs lines 19-57).  The failed `assert!` is the
outer `none` branch.  The fuel `N * (psize / sector_size) + N + 1`
strictly exceeds the number of loop iterations, because every window of
`N` consecutive indices contains at least one data column. -/
def calculate_convolution_vector_for_block (off psize : Nat) (is_raidz1 : Bool)
    (sector_size raidz_ndevices raidz_nparity : Nat) : Option (List Bool) :=
  if raidz_nparity < raidz_ndevices then
    let column_mapping := List.range raidz_ndevices
    let column_mapping :=
      if is_raidz1 ∧ (off / 1048576) % 2 ≠ 0 then swap01 column_mapping
      else column_mapping
    convMaskGo column_mapping raidz_ndevices raidz_nparity
      (raidz_ndevices * (psize / sector_size) + raidz_ndevices + 1) 0
      (psize / sector_size)
  else none

/-- Modelled from the spec: the convolution itself is performed by the
external `fftconvolve` crate (src/yolo_block_recovery.rs line 81), whose
code is not part of this repository.  Section 4.7 of the specification
gives the semantics of the output that
`calculate_fletcher4_partial_block_checksums` keeps after dropping the
first `mask.length - 1` entries: the output at shift `k` is
`Σ checksums[k + j] · mask[j]`. -/
def convOutputAt (table : Nat → Nat) (mask : List Bool) (k : Nat) : Nat :=
  ((List.range mask.length).map
    (fun j => if mask.getD j false then table (k + j) else 0)).sum

theorem convMaskGo_spec (cm : List Nat) (N p : Nat) :
    ∀ (fuel index rem : Nat) (mask : List Bool),
      convMaskGo cm N p fuel index rem = some mask →
      0 < mask.length ∧ mask.getLast? = some true ∧ mask.count true = rem ∧
        ∀ j, j < mask.length →
          mask.getD j false = decide (p ≤ cm.getD ((index + j) % N) 0)
  | 0, index, rem, mask, h => by rw [convMaskGo] at h; exact absurd h (by simp)
  | fuel + 1, index, rem, mask, h => by
    rw [convMaskGo] at h
    by_cases hpar : cm.getD (index % N) 0 < p
    · rw [if_pos hpar] at h
      cases hrec : convMaskGo cm N p fuel (index + 1) rem with
      | none => rw [hrec] at h; exact absurd h (by simp)
      | some res =>
        rw [hrec, Option.map_some'] at h
        obtain ⟨h1, h2, h3, h4⟩ := convMaskGo_spec cm N p fuel (index + 1) rem res hrec
        have hm : mask = false :: res := (Option.some.injEq _ _).mp h |>.symm
        subst hm
        refine ⟨by simp, ?_, by simpa [List.count_cons] using h3, ?_⟩
        · cases res with
          | nil => simp at h1
          | cons r rs => rw [List.getLast?_cons_cons]; exact h2
        · intro j hj
          cases j with
          | zero =>
            simp only [List.getD_cons_zero, Nat.add_zero]
            exact (decide_eq_false (by omega)).symm
          | succ j =>
            simp only [List.getD_cons_succ]
            rw [show index + (j + 1) = index + 1 + j by omega]
            exact h4 j (by simpa using hj)
    · rw [if_neg hpar] at h
      by_cases hr0 : rem = 0
      · rw [if_pos hr0] at h; exact absurd h (by simp)
      rw [if_neg hr0] at h
      by_cases hr1 : rem = 1
      · rw [if_pos hr1] at h
        have hm : mask = [true] := (Option.some.injEq _ _).mp h |>.symm
        subst hm
        refine ⟨by simp, rfl, by simp [List.count_cons, hr1], ?_⟩
        intro j hj
        have hj0 : j = 0 := by simpa using hj
        subst hj0
        simp only [List.getD_cons_zero, Nat.add_zero]
        exact (decide_eq_true (by omega)).symm
      · rw [if_neg hr1] at h
        cases hrec : convMaskGo cm N p fuel (index + 1) (rem - 1) with
        | none => rw [hrec] at h; exact absurd h (by simp)
        | some res =>
          rw [hrec, Option.map_some'] at h
          obtain ⟨h1, h2, h3, h4⟩ :=
            convMaskGo_spec cm N p fuel (index + 1) (rem - 1) res hrec
          have hm : mask = true :: res := (Option.some.injEq _ _).mp h |>.symm
          subst hm
          refine ⟨by simp, ?_, ?_, ?_⟩
          · cases res with
            | nil => simp at h1
            | cons r rs => rw [List.getLast?_cons_cons]; exact h2
          · simp only [List.count_cons, h3]
            simp
            omega
          · intro j hj
            cases j with
            | zero =>
              simp only [List.getD_cons_zero, Nat.add_zero]
              exact (decide_eq_true (by omega)).symm
            | succ j =>
              simp only [List.getD_cons_succ]
              rw [show index + (j + 1) = index + 1 + j by omega]
              exact h4 j (by simpa using hj)

/-! ## List and arithmetic helpers for the convolution correspondence -/

theorem range'_drop (k : Nat) : ∀ (s n : Nat),
    (List.range' s n).drop k = List.range' (s + k) (n - k) := by
  induction k with
  | zero => intro s n; simp
  | succ k ih =>
    intro s n
    cases n with
    | zero => simp
    | succ n =>
      rw [List.range'_succ, List.drop_succ_cons, ih (s + 1) n]
      congr 1 <;> omega

theorem stepBy_map {α β : Type} (f : α → β) (n : Nat) :
    ∀ (l : List α), stepBy n (l.map f) = (stepBy n l).map f
  | [] => by rw [List.map_nil, stepBy, stepBy, List.map_nil]
  | a :: rest => by
    rw [List.map_cons, stepBy, stepBy, List.map_cons, ← List.map_drop,
      stepBy_map f n (rest.drop (n - 1))]
termination_by l => l.length
decreasing_by simp only [List.length_drop, List.length_cons]; omega

theorem stepBy_subset {α : Type} (n : Nat) :
    ∀ (l : List α) (x : α), x ∈ stepBy n l → x ∈ l
  | [], x, h => by rw [stepBy] at h; exact absurd h (by simp)
  | a :: rest, x, h => by
    rw [stepBy] at h
    rcases List.mem_cons.mp h with h | h
    · exact h ▸ List.mem_cons_self a rest
    · exact List.mem_cons_of_mem a
        (List.mem_of_mem_drop (stepBy_subset n (rest.drop (n - 1)) x h))
termination_by l => l.length
decreasing_by simp only [List.length_drop, List.length_cons]; omega

theorem ceilDivSrc_zero (N : Nat) : ceilDivSrc 0 N = 0 := by
  simp [ceilDivSrc]

theorem ceilDivSrc_add_self (x N : Nat) (hN : 0 < N) :
    ceilDivSrc (x + N) N = ceilDivSrc x N + 1 := by
  by_cases h : x % N = 0 <;>
    simp [ceilDivSrc, Nat.add_mod_right, Nat.add_div_right _ hN, h]

theorem stepBy_length {α : Type} (N : Nat) (hN : 0 < N) :
    ∀ (l : List α), (stepBy N l).length = ceilDivSrc l.length N
  | [] => by rw [stepBy]; simp [ceilDivSrc]
  | a :: rest => by
    rw [stepBy, List.length_cons, List.length_cons]
    by_cases hR : N - 1 ≤ rest.length
    · rw [stepBy_length N hN (rest.drop (N - 1)), List.length_drop]
      rw [show rest.length + 1 = (rest.length - (N - 1)) + N by omega,
        ceilDivSrc_add_self _ _ hN]
    · rw [List.drop_eq_nil_of_le (by omega), stepBy, List.length_nil]
      have h1 : (rest.length + 1) % N = rest.length + 1 :=
        Nat.mod_eq_of_lt (by omega)
      have h2 : (rest.length + 1) / N = 0 := Nat.div_eq_of_lt (by omega)
      rw [ceilDivSrc, h1, if_neg (by omega), h2]
termination_by l => l.length
decreasing_by simp only [List.length_drop, List.length_cons]; omega

theorem ceilDivSrc_bounds (B d : Nat) (hB : 0 < B) (hd : 0 < d) :
    (ceilDivSrc B d - 1) * d < B ∧ B ≤ ceilDivSrc B d * d := by
  rw [ceilDivSrc]
  by_cases h : B % d = 0
  · rw [if_pos h]
    have hdvd : d ∣ B := Nat.dvd_of_mod_eq_zero h
    have h1 : B / d * d = B := Nat.div_mul_cancel hdvd
    have h2 : 1 ≤ B / d := Nat.one_le_div_iff hd |>.mpr (Nat.le_of_dvd hB hdvd)
    constructor
    · rw [Nat.sub_mul, one_mul, h1]
      exact Nat.sub_lt hB hd
    · rw [h1]
  · rw [if_neg h]
    have h1 : d * (B / d) + B % d = B := Nat.div_add_mod B d
    have h2 : B % d < d := Nat.mod_lt B hd
    have h3 : 0 < B % d := Nat.pos_of_ne_zero h
    constructor
    · rw [Nat.add_sub_cancel, Nat.mul_comm]
      omega
    · rw [Nat.add_mul, one_mul, Nat.mul_comm]
      omega

theorem ceilDivSrc_eq (x N S : Nat) (hN : 0 < N) (hS : 0 < S)
    (hlo : (S - 1) * N < x) (hhi : x ≤ S * N) : ceilDivSrc x N = S := by
  rw [ceilDivSrc]
  by_cases h : x % N = 0
  · rw [if_pos h]
    obtain ⟨t, ht⟩ := Nat.dvd_of_mod_eq_zero h
    subst ht
    have h1 : S - 1 < t := by
      by_contra hc
      have : N * t ≤ N * (S - 1) := Nat.mul_le_mul_left N (by omega)
      rw [Nat.mul_comm N (S - 1)] at this
      omega
    have h2 : t ≤ S := by
      by_contra hc
      have : N * S < N * t := (Nat.mul_lt_mul_left hN).mpr (by omega)
      rw [Nat.mul_comm N S] at this
      omega
    have ht : t = S := by omega
    subst ht
    exact Nat.mul_div_cancel_left t hN
  · rw [if_neg h]
    have hxne : x ≠ S * N := by
      intro hc
      rw [hc, Nat.mul_comm, Nat.mul_mod_right] at h
      exact h rfl
    have h1 : x / N = S - 1 := by
      refine Nat.div_eq_of_lt_le (by omega) ?_
      rw [show S - 1 + 1 = S by omega]
      omega
    omega

theorem listChunks_full (A : Nat) (hA : A ≠ 0) :
    ∀ (k : Nat) (res : List Nat), res.length = k * A →
      listChunks A res = (List.range k).map (fun i => (res.drop (i * A)).take A) := by
  intro k
  induction k with
  | zero =>
    intro res hres
    rw [Nat.zero_mul] at hres
    rw [List.length_eq_zero.mp hres, listChunks_nil, List.range_zero, List.map_nil]
  | succ k ih =>
    intro res hres
    have hAle : A ≤ res.length := by
      rw [hres]
      calc A = 1 * A := (Nat.one_mul A).symm
        _ ≤ (k + 1) * A := Nat.mul_le_mul_right A (by omega)
    have htk : (res.take A).length = A := by
      rw [List.length_take]
      omega
    have hdk : (res.drop A).length = k * A := by
      rw [List.length_drop, hres]
      rw [Nat.succ_mul]
      omega
    conv_lhs => rw [← List.take_append_drop A res]
    rw [listChunks_append A hA _ _ htk, ih (res.drop A) hdk,
      List.range_succ_eq_map, List.map_cons, List.map_map]
    congr 1
    · rw [Nat.zero_mul, List.drop_zero]
    · refine List.map_congr_left ?_
      intro i _
      simp only [Function.comp_apply]
      rw [List.drop_drop, show A + i * A = i.succ * A by rw [Nat.succ_mul]; omega]

theorem wordsSum_nil : wordsSum [] = 0 := rfl

theorem wordsSum_flatten : ∀ (ls : List (List Nat)), (∀ l ∈ ls, 4 ∣ l.length) →
    wordsSum ls.flatten = (ls.map wordsSum).sum
  | [], _ => by rw [List.flatten_nil, List.map_nil, List.sum_nil, wordsSum_nil]
  | a :: rest, h => by
    rw [List.flatten_cons, wordsSum_append a rest.flatten (h a (by simp)),
      wordsSum_flatten rest (fun l hl => h l (by simp [hl])), List.map_cons,
      List.sum_cons]

/-- Splitting off the first hit of an arithmetic-progression condition. -/
theorem cond_split (N : Nat) (hN : 0 < N) (g : Nat → Nat) (r i : Nat) :
    (if r ≤ i ∧ (i - r) % N = 0 then g i else 0) =
      (if i = r then g i else 0) +
        (if r + N ≤ i ∧ (i - (r + N)) % N = 0 then g i else 0) := by
  by_cases hir : i = r
  · subst hir
    rw [if_pos ⟨Nat.le_refl i, by simp⟩, if_pos rfl, if_neg (by omega), Nat.add_zero]
  · rw [if_neg hir, Nat.zero_add]
    have hiff : (r ≤ i ∧ (i - r) % N = 0) ↔ (r + N ≤ i ∧ (i - (r + N)) % N = 0) := by
      constructor
      · rintro ⟨h1, h2⟩
        have hdvd : N ∣ (i - r) := Nat.dvd_of_mod_eq_zero h2
        have hge : N ≤ i - r := Nat.le_of_dvd (by omega) hdvd
        refine ⟨by omega, ?_⟩
        rw [show i - (r + N) = (i - r) - N by omega]
        exact Nat.dvd_iff_mod_eq_zero.mp (Nat.dvd_sub' hdvd (Nat.dvd_refl N))
      · rintro ⟨h1, h2⟩
        refine ⟨by omega, ?_⟩
        rw [show i - r = (i - (r + N)) + N by omega, Nat.add_mod_right]
        exact h2
    by_cases hc : r ≤ i ∧ (i - r) % N = 0
    · rw [if_pos hc, if_pos (hiff.mp hc)]
    · rw [if_neg hc, if_neg (fun hc2 => hc (hiff.mpr hc2))]

theorem mod_eq_sub_cond (N r i : Nat) (hr : r < N) :
    i % N = r ↔ (r ≤ i ∧ (i - r) % N = 0) := by
  constructor
  · intro h
    have h1 : r ≤ i := h ▸ Nat.mod_le i N
    refine ⟨h1, ?_⟩
    conv_lhs => rw [show i = N * (i / N) + i % N from (Nat.div_add_mod i N).symm]
    rw [h, Nat.add_sub_cancel, Nat.mul_mod_right]
  · rintro ⟨h1, h2⟩
    obtain ⟨k, hk⟩ := Nat.dvd_of_mod_eq_zero h2
    have hik : i = N * k + r := by omega
    rw [hik, Nat.mul_add_mod, Nat.mod_eq_of_lt hr]

theorem sum_ite_single (r m : Nat) (g : Nat → Nat) (h : r < m) :
    (∑ i ∈ Finset.range m, if i = r then g i else 0) = g r := by
  rw [Finset.sum_ite_eq' (Finset.range m) r g, if_pos (Finset.mem_range.mpr h)]

theorem stepSumAux (N : Nat) (hN : 0 < N) (g : Nat → Nat) :
    ∀ (len r : Nat),
      ((stepBy N (List.range' r len)).map g).sum =
        ∑ i ∈ Finset.range (r + len), if r ≤ i ∧ (i - r) % N = 0 then g i else 0
  | 0, r => by
    rw [List.range'_zero, stepBy, List.map_nil, List.sum_nil]
    symm
    apply Finset.sum_eq_zero
    intro i hi
    have hi' : i < r + 0 := Finset.mem_range.mp hi
    exact if_neg (fun hc => absurd hc.1 (by omega))
  | len + 1, r => by
    rw [List.range'_succ, stepBy, range'_drop,
      show r + 1 + (N - 1) = r + N by omega,
      show len - (N - 1) = len + 1 - N by omega,
      List.map_cons, List.sum_cons]
    have hsplit : (∑ i ∈ Finset.range (r + (len + 1)),
        if r ≤ i ∧ (i - r) % N = 0 then g i else 0) =
        (∑ i ∈ Finset.range (r + (len + 1)), if i = r then g i else 0) +
          ∑ i ∈ Finset.range (r + (len + 1)),
            if r + N ≤ i ∧ (i - (r + N)) % N = 0 then g i else 0 := by
      rw [← Finset.sum_add_distrib]
      exact Finset.sum_congr rfl (fun i _ => cond_split N hN g r i)
    rw [hsplit, sum_ite_single r (r + (len + 1)) g (by omega)]
    congr 1
    by_cases hbig : N ≤ len + 1
    · rw [stepSumAux N hN g (len + 1 - N) (r + N),
        show r + N + (len + 1 - N) = r + (len + 1) by omega]
    · rw [show len + 1 - N = 0 by omega, List.range'_zero, stepBy, List.map_nil,
        List.sum_nil]
      symm
      apply Finset.sum_eq_zero
      intro i hi
      have hi' : i < r + (len + 1) := Finset.mem_range.mp hi
      exact if_neg (fun hc => absurd hc.1 (by omega))
termination_by len => len
decreasing_by omega

theorem stepSum (N : Nat) (hN : 0 < N) (g : Nat → Nat) (m r : Nat) (hr : r < N) :
    ((stepBy N (List.range' r (m - r))).map g).sum =
      ∑ i ∈ Finset.range m, if i % N = r then g i else 0 := by
  by_cases hrm : r ≤ m
  · rw [stepSumAux N hN g (m - r) r, Nat.add_sub_cancel' hrm]
    refine Finset.sum_congr rfl ?_
    intro i _
    by_cases hc : i % N = r
    · rw [if_pos hc, if_pos ((mod_eq_sub_cond N r i hr).mp hc)]
    · rw [if_neg hc, if_neg (fun h2 => hc ((mod_eq_sub_cond N r i hr).mpr h2))]
  · rw [show m - r = 0 by omega, List.range'_zero, stepBy, List.map_nil,
      List.sum_nil]
    symm
    apply Finset.sum_eq_zero
    intro i hi
    have hi' : i < m := Finset.mem_range.mp hi
    have him : i % N = i := Nat.mod_eq_of_lt (by omega)
    exact if_neg (fun hc => absurd (him.symm.trans hc) (by omega))

theorem getD_range' (s n i : Nat) (h : i < n) :
    (List.range' s n).getD i 0 = s + i := by
  rw [List.getD_eq_getElem _ _ (by simpa using h), List.getElem_range']
  omega

theorem getD_range (n i : Nat) (h : i < n) : (List.range n).getD i 0 = i := by
  rw [List.range_eq_range', getD_range' 0 n i h, Nat.zero_add]

theorem chunk_len (A : Nat) (res : List Nat) (m i : Nat)
    (hlen : res.length = m * A) (hi : i < m) :
    ((res.drop (i * A)).take A).length = A := by
  rw [List.length_take, List.length_drop, hlen]
  have h1 : (i + 1) * A ≤ m * A := Nat.mul_le_mul_right A (by omega)
  rw [Nat.succ_mul] at h1
  omega

/-- One column of the RAIDZ transpose, as chunks selected by index. -/
theorem transpose_col (A N : Nat) (hA : A ≠ 0) (res : List Nat) (m r : Nat)
    (hlen : res.length = m * A) :
    stepBy N ((listChunks A res).drop r) =
      (stepBy N (List.range' r (m - r))).map (fun i => (res.drop (i * A)).take A) := by
  rw [listChunks_full A hA m res hlen, ← List.map_drop, List.range_eq_range',
    range'_drop, Nat.zero_add, stepBy_map]

theorem col_mem_lt (N m r i : Nat) (hi : i ∈ stepBy N (List.range' r (m - r))) :
    i < m := by
  have := List.mem_range'_1.mp (stepBy_subset N _ i hi)
  omega

theorem transpose_col_wordsSum (A N : Nat) (hA : A ≠ 0) (h4 : 4 ∣ A) (hN : 0 < N)
    (res : List Nat) (m r : Nat) (hlen : res.length = m * A) (hr : r < N) :
    wordsSum ((stepBy N ((listChunks A res).drop r)).flatten) =
      ∑ i ∈ Finset.range m,
        if i % N = r then wordsSum ((res.drop (i * A)).take A) else 0 := by
  rw [transpose_col A N hA res m r hlen]
  rw [wordsSum_flatten _ ?_]
  · rw [List.map_map]
    exact stepSum N hN (fun i => wordsSum ((res.drop (i * A)).take A)) m r hr
  · intro l hl
    obtain ⟨i, hi, rfl⟩ := List.mem_map.mp hl
    rw [chunk_len A res m i hlen (col_mem_lt N m r i hi)]
    exact h4

theorem transpose_col_length (A N : Nat) (hA : A ≠ 0) (hN : 0 < N)
    (res : List Nat) (m r : Nat) (hlen : res.length = m * A) (hr : r < N) :
    ((stepBy N ((listChunks A res).drop r)).flatten).length =
      ∑ i ∈ Finset.range m, if i % N = r then A else 0 := by
  rw [transpose_col A N hA res m r hlen, List.length_flatten, List.map_map]
  simp only [Function.comp_def]
  rw [stepSum N hN (fun i => ((res.drop (i * A)).take A).length) m r hr]
  refine Finset.sum_congr rfl ?_
  intro i hi
  by_cases hc : i % N = r
  · rw [if_pos hc, if_pos hc, chunk_len A res m i hlen (Finset.mem_range.mp hi)]
  · rw [if_neg hc, if_neg hc]

theorem col_length_dvd (A N : Nat) (hA : A ≠ 0) (h4 : 4 ∣ A)
    (res : List Nat) (m r : Nat) (hlen : res.length = m * A) :
    4 ∣ ((stepBy N ((listChunks A res).drop r)).flatten).length := by
  rw [transpose_col A N hA res m r hlen, List.length_flatten, List.map_map]
  refine List.dvd_sum ?_
  intro x hx
  obtain ⟨i, hi, rfl⟩ := List.mem_map.mp hx
  simp only [Function.comp_apply]
  rw [chunk_len A res m i hlen (col_mem_lt N m r i hi)]
  exact h4

theorem colsum_ident (N : Nat) (hN : 2 ≤ N) (G : Nat → Nat) :
    (((List.range N).drop 1).map (fun c => G ((List.range N).getD c 0))).sum =
      ∑ r ∈ (Finset.range N).erase 0, G r := by
  have hmap : ((List.range N).drop 1).map (fun c => G ((List.range N).getD c 0)) =
      ((List.range N).drop 1).map G := by
    refine List.map_congr_left ?_
    intro c hc
    have hcm : c ∈ List.range N := List.mem_of_mem_drop hc
    rw [getD_range N c (List.mem_range.mp hcm)]
  rw [hmap, List.range_eq_range', range'_drop, Nat.zero_add,
    List.range'_eq_map_range, List.map_map]
  have hlist : ((List.range (N - 1)).map (G ∘ fun t => 1 + t)).sum =
      ∑ t ∈ Finset.range (N - 1), G (1 + t) := rfl
  rw [hlist]
  have h1 : ∑ r ∈ Finset.range N, G r =
      (∑ t ∈ Finset.range (N - 1), G (t + 1)) + G 0 := by
    conv_lhs => rw [show N = (N - 1) + 1 by omega]
    exact Finset.sum_range_succ' G (N - 1)
  have h2 : (∑ r ∈ (Finset.range N).erase 0, G r) + G 0 =
      ∑ r ∈ Finset.range N, G r :=
    Finset.sum_erase_add _ _ (Finset.mem_range.mpr (by omega))
  have h3 : (∑ t ∈ Finset.range (N - 1), G (1 + t)) =
      ∑ t ∈ Finset.range (N - 1), G (t + 1) :=
    Finset.sum_congr rfl (fun t _ => by rw [Nat.add_comm])
  omega

theorem colsum_swap (N : Nat) (hN : 2 ≤ N) (G : Nat → Nat) :
    (((List.range N).drop 1).map (fun c => G ((swap01 (List.range N)).getD c 0))).sum =
      ∑ r ∈ (Finset.range N).erase 1, G r := by
  obtain ⟨K, rfl⟩ : ∃ K, N = K + 2 := ⟨N - 2, by omega⟩
  have hrange : List.range (K + 2) = 0 :: 1 :: List.range' 2 K := by
    rw [List.range_eq_range', List.range'_succ, List.range'_succ]
  have hsw : swap01 (List.range (K + 2)) = 1 :: 0 :: List.range' 2 K := by
    rw [hrange]; rfl
  have hdrop : (List.range (K + 2)).drop 1 = 1 :: List.range' 2 K := by
    rw [hrange, List.drop_succ_cons, List.drop_zero]
  rw [hdrop, hsw, List.map_cons, List.sum_cons]
  have hgd1 : (([1, 0] : List Nat) ++ List.range' 2 K).getD 1 0 = 0 := rfl
  have htail : (List.range' 2 K).map
        (fun c => G ((1 :: 0 :: List.range' 2 K).getD c 0)) =
      (List.range' 2 K).map G := by
    refine List.map_congr_left ?_
    intro c hc
    have hcb := List.mem_range'_1.mp hc
    have hc2 : c - 2 < K := by omega
    have : (1 :: 0 :: List.range' 2 K).getD c 0 = (List.range' 2 K).getD (c - 2) 0 := by
      obtain ⟨j, rfl⟩ : ∃ j, c = j + 2 := ⟨c - 2, by omega⟩
      rfl
    rw [this, getD_range' 2 K (c - 2) hc2]
    congr 1
    omega
  rw [htail]
  have hG0 : G ((1 :: 0 :: List.range' 2 K).getD 1 0) = G 0 := rfl
  rw [hG0]
  have hlist : ((List.range K).map (G ∘ fun t => 2 + t)).sum =
      ∑ t ∈ Finset.range K, G (2 + t) := rfl
  rw [List.range'_eq_map_range, List.map_map, hlist]
  have h1 : ∑ r ∈ Finset.range (K + 2), G r =
      (∑ t ∈ Finset.range (K + 1), G (t + 1)) + G 0 :=
    Finset.sum_range_succ' G (K + 1)
  have h1b : ∑ t ∈ Finset.range (K + 1), G (t + 1) =
      (∑ t ∈ Finset.range K, G (t + 1 + 1)) + G 1 :=
    Finset.sum_range_succ' (fun t => G (t + 1)) K
  have h2 : (∑ r ∈ (Finset.range (K + 2)).erase 1, G r) + G 1 =
      ∑ r ∈ Finset.range (K + 2), G r :=
    Finset.sum_erase_add _ _ (Finset.mem_range.mpr (by omega))
  have h3 : (∑ t ∈ Finset.range K, G (2 + t)) =
      ∑ t ∈ Finset.range K, G (t + 1 + 1) :=
    Finset.sum_congr rfl (fun t _ => by rw [show t + 1 + 1 = 2 + t by omega])
  omega

/-- The parity residue the RAIDZ-1 rotation leaves out of the data
columns: 0 normally, 1 on odd-megabyte offsets. -/
def raidzParityColumn (off : Nat) : Nat :=
  if (off / 1048576) % 2 = 0 then 0 else 1

theorem raidzColumnMapping_even (off N : Nat) (h : (off / 1048576) % 2 = 0) :
    raidzColumnMapping 1 off N = List.range N := by
  rw [raidzColumnMapping, if_neg (fun hc => hc.2 h)]

theorem raidzColumnMapping_odd (off N : Nat) (h : ¬ (off / 1048576) % 2 = 0) :
    raidzColumnMapping 1 off N = swap01 (List.range N) := by
  rw [raidzColumnMapping, if_pos ⟨rfl, h⟩]

theorem raidzTranspose_wordsSum (A N off : Nat) (hA : A ≠ 0) (h4 : 4 ∣ A)
    (hN : 2 ≤ N) (res : List Nat) (m : Nat) (hlen : res.length = m * A) :
    wordsSum (raidzTranspose A N 1 off res) =
      ∑ r ∈ (Finset.range N).erase (raidzParityColumn off), ∑ i ∈ Finset.range m,
        if i % N = r then wordsSum ((res.drop (i * A)).take A) else 0 := by
  have hdvd : ∀ l ∈ ((List.range N).drop 1).map
      (fun c => (stepBy N ((listChunks A res).drop
        ((raidzColumnMapping 1 off N).getD c 0))).flatten), 4 ∣ l.length := by
    intro l hl
    obtain ⟨c, hc, rfl⟩ := List.mem_map.mp hl
    exact col_length_dvd A N hA h4 res m _ hlen
  rw [raidzTranspose, wordsSum_flatten _ hdvd, List.map_map]
  by_cases hpar : (off / 1048576) % 2 = 0
  · rw [raidzColumnMapping_even off N hpar, raidzParityColumn, if_pos hpar]
    refine Eq.trans ?_ (Finset.sum_congr rfl (fun r hr =>
      transpose_col_wordsSum A N hA h4 (by omega) res m r hlen
        (Finset.mem_range.mp (Finset.mem_erase.mp hr).2)))
    exact colsum_ident N hN
      (fun r => wordsSum ((stepBy N ((listChunks A res).drop r)).flatten))
  · rw [raidzColumnMapping_odd off N hpar, raidzParityColumn, if_neg hpar]
    refine Eq.trans ?_ (Finset.sum_congr rfl (fun r hr =>
      transpose_col_wordsSum A N hA h4 (by omega) res m r hlen
        (Finset.mem_range.mp (Finset.mem_erase.mp hr).2)))
    exact colsum_swap N hN
      (fun r => wordsSum ((stepBy N ((listChunks A res).drop r)).flatten))

theorem raidzTranspose_length (A N off : Nat) (hA : A ≠ 0) (hN : 2 ≤ N)
    (res : List Nat) (m : Nat) (hlen : res.length = m * A) :
    (raidzTranspose A N 1 off res).length =
      ∑ r ∈ (Finset.range N).erase (raidzParityColumn off), ∑ i ∈ Finset.range m,
        if i % N = r then A else 0 := by
  rw [raidzTranspose, List.length_flatten, List.map_map]
  by_cases hpar : (off / 1048576) % 2 = 0
  · rw [raidzColumnMapping_even off N hpar, raidzParityColumn, if_pos hpar]
    refine Eq.trans ?_ (Finset.sum_congr rfl (fun r hr =>
      transpose_col_length A N hA (by omega) res m r hlen
        (Finset.mem_range.mp (Finset.mem_erase.mp hr).2)))
    exact colsum_ident N hN
      (fun r => ((stepBy N ((listChunks A res).drop r)).flatten).length)
  · rw [raidzColumnMapping_odd off N hpar, raidzParityColumn, if_neg hpar]
    refine Eq.trans ?_ (Finset.sum_congr rfl (fun r hr =>
      transpose_col_length A N hA (by omega) res m r hlen
        (Finset.mem_range.mp (Finset.mem_erase.mp hr).2)))
    exact colsum_swap N hN
      (fun r => ((stepBy N ((listChunks A res).drop r)).flatten).length)

theorem erase_sum_to_ite (N q m : Nat) (hq : q < N) (w : Nat → Nat) :
    (∑ r ∈ (Finset.range N).erase q, ∑ i ∈ Finset.range m,
      if i % N = r then w i else 0) =
      ∑ i ∈ Finset.range m, if i % N ≠ q then w i else 0 := by
  rw [Finset.sum_comm]
  refine Finset.sum_congr rfl ?_
  intro i _
  rw [Finset.sum_ite_eq ((Finset.range N).erase q) (i % N) (fun _ => w i)]
  have hmod : i % N < N := Nat.mod_lt i (by omega)
  by_cases hne : i % N = q
  · rw [if_neg (fun hc => (Finset.mem_erase.mp hc).1 hne), if_neg (by simpa using hne)]
  · rw [if_pos (Finset.mem_erase.mpr ⟨hne, Finset.mem_range.mpr hmod⟩), if_pos hne]

theorem sum_map_one {α : Type} : ∀ (l : List α), (l.map (fun _ => (1 : Nat))).sum = l.length
  | [] => rfl
  | a :: t => by
    rw [List.map_cons, List.sum_cons, sum_map_one t, List.length_cons]
    omega

theorem count_residue (N q m : Nat) (hN : 0 < N) (hq : q < N) :
    (∑ i ∈ Finset.range m, if i % N = q then 1 else 0) = ceilDivSrc (m - q) N := by
  rw [← stepSum N hN (fun _ => 1) m q hq, sum_map_one, stepBy_length N hN,
    List.length_range']

theorem sum_ite_mod_total (N q m : Nat) (w : Nat → Nat) :
    ((∑ i ∈ Finset.range m, if i % N ≠ q then w i else 0) +
      ∑ i ∈ Finset.range m, if i % N = q then w i else 0) =
      ∑ i ∈ Finset.range m, w i := by
  rw [← Finset.sum_add_distrib]
  refine Finset.sum_congr rfl ?_
  intro i _
  by_cases h : i % N = q <;> simp [h]

theorem countq_eq_S (N B q : Nat) (hN : 2 ≤ N) (hB : 0 < B) (hq : q ≤ 1) :
    ceilDivSrc (B + ceilDivSrc B (N - 1) - q) N = ceilDivSrc B (N - 1) := by
  obtain ⟨hlo, hhi⟩ := ceilDivSrc_bounds B (N - 1) hB (by omega)
  generalize hgen : ceilDivSrc B (N - 1) = S at hlo hhi ⊢
  have hS1 : 0 < S := by
    by_contra hc
    have hz : S = 0 := by omega
    rw [hz, Nat.zero_mul] at hhi
    omega
  refine ceilDivSrc_eq _ N S (by omega) hS1 ?_ ?_
  · have e1 : (S - 1) * N = (S - 1) * (N - 1) + (S - 1) := by
      rw [← Nat.mul_succ]
      congr 1
      omega
    omega
  · have e2 : S * N = S * (N - 1) + S := by
      rw [← Nat.mul_succ]
      congr 1
      omega
    omega

theorem data_count (N B q m : Nat) (hN : 2 ≤ N) (hB : 0 < B) (hq : q ≤ 1)
    (hm : m = B + ceilDivSrc B (N - 1)) :
    (∑ i ∈ Finset.range m, if i % N ≠ q then 1 else 0) = B := by
  have h1 := count_residue N q m (by omega) (by omega)
  have h2 := sum_ite_mod_total N q m (fun _ => 1)
  have h3 : (∑ _i ∈ Finset.range m, (1 : Nat)) = m := by simp
  have h4 : ceilDivSrc (m - q) N = ceilDivSrc B (N - 1) := by
    rw [hm]
    exact countq_eq_S N B q hN hB hq
  omega

theorem count_true_sum : ∀ (l : List Bool),
    l.count true = ∑ j ∈ Finset.range l.length, if l.getD j false = true then 1 else 0
  | [] => rfl
  | b :: t => by
    rw [List.count_cons, count_true_sum t, List.length_cons,
      Finset.sum_range_succ' (fun j => if (b :: t).getD j false = true then 1 else 0)
        t.length]
    cases b <;> simp

theorem mapping_data_iff (off N x : Nat) (hN : 2 ≤ N) (hx : x < N) :
    (1 ≤ (raidzColumnMapping 1 off N).getD x 0) ↔ x ≠ raidzParityColumn off := by
  by_cases hpar : (off / 1048576) % 2 = 0
  · rw [raidzColumnMapping_even off N hpar, raidzParityColumn, if_pos hpar,
      getD_range N x hx]
    omega
  · rw [raidzColumnMapping_odd off N hpar, raidzParityColumn, if_neg hpar]
    obtain ⟨K, rfl⟩ : ∃ K, N = K + 2 := ⟨N - 2, by omega⟩
    have hsw : swap01 (List.range (K + 2)) = 1 :: 0 :: List.range' 2 K := by
      rw [List.range_eq_range', List.range'_succ, List.range'_succ]
      rfl
    rw [hsw]
    rcases x with _ | _ | x
    · simp
    · simp
    · have hg : (1 :: 0 :: List.range' 2 K).getD (x + 2) 0 =
          (List.range' 2 K).getD x 0 := rfl
      rw [hg, getD_range' 2 K x (by omega)]
      omega

theorem calc_mask_unfold (off psize A N : Nat) :
    calculate_convolution_vector_for_block off psize true A N 1 =
      if 1 < N then
        convMaskGo (raidzColumnMapping 1 off N) N 1 (N * (psize / A) + N + 1) 0
          (psize / A)
      else none := by
  simp only [calculate_convolution_vector_for_block]
  by_cases h : 1 < N
  · rw [if_pos h, if_pos h]
    congr 1
    rw [raidzColumnMapping]
    by_cases hodd : (off / 1048576) % 2 = 0
    · rw [if_neg (fun hc => hc.2 hodd), if_neg (fun hc => hc.2 hodd)]
    · rw [if_pos ⟨trivial, hodd⟩, if_pos ⟨rfl, hodd⟩]
  · rw [if_neg h, if_neg h]

theorem sum_range_split (m L : Nat) (f : Nat → Nat) (hLm : L ≤ m) :
    ∑ i ∈ Finset.range m, f i =
      (∑ i ∈ Finset.range L, f i) + ∑ i ∈ Finset.Ico L m, f i := by
  simp only [Finset.range_eq_Ico]
  exact (Finset.sum_Ico_consecutive f (Nat.zero_le L) hLm).symm

theorem VdevRaidzM.read_length (v : VdevRaidzM) (off amt : Nat) (c c1 : SectorCache)
    (res : List Nat) (h : v.read off amt c = (.ok res, c1)) : res.length = amt := by
  simp only [VdevRaidzM.read] at h
  by_cases h0 : amt = 0
  · rw [if_pos h0] at h
    simp only [Prod.mk.injEq, Except.ok.injEq] at h
    rw [← h.1, List.length_nil, h0]
  · rw [if_neg h0] at h
    split at h
    · simp at h
    · rename_i first_sector c1' heq
      split at h
      · rename_i hle
        simp only [Prod.mk.injEq, Except.ok.injEq] at h
        rw [← h.1, List.length_take]
        omega
      · rename_i hgt
        split at h
        · simp at h
        · rename_i res2 c2 heq2
          split at h
          · rename_i hle2
            simp only [Prod.mk.injEq, Except.ok.injEq] at h
            rw [← h.1, List.length_take]
            omega
          · simp at h

/-- C4 (amended): for a RAIDZ-1 vdev with `N` devices and sector size
`A`, a block of `B` whole sectors at a sector-aligned DVA whose RAIDZ read
succeeds, and a sector-checksum table whose entries over the read span are
the low 32 bits of fletcher4-s1 of the corresponding sectors, the
dereference succeeds and the spec-modelled convolution output at shift
`offset / A` is congruent modulo `2^32` to `C[0] & 0xFFFFFFFF` of the
block's full fletcher4 checksum `C` --- so the scanner's u32-truncated
comparison at a true block location always matches, and the partial-match
set is a superset of the true locations.  The claim's stronger reading,
that the convolution output itself equals `C[0] & 0xFFFFFFFF`, is refuted
by `C4_conv_exact_value_refuted`. -/
theorem C4_conv_partial_checksum_congruence
    (v : VdevRaidzM) (dva : DataVirtualAddress) (table : Nat → Nat)
    (B size : Nat) (mask : List Bool) (c c1 : SectorCache) (res : List Nat)
    (hN : 2 ≤ v.ndevices) (hp : v.nparity = 1)
    (hA4 : 4 ∣ v.asize) (hA0 : 0 < v.asize) (hB : 0 < B)
    (hsize : size = B * v.asize)
    (hread : v.read dva.parse_offset (sizeWithParity v size) c = (.ok res, c1))
    (hmask : calculate_convolution_vector_for_block dva.parse_offset size true
        v.asize v.ndevices v.nparity = some mask)
    (htable : ∀ j, j < mask.length →
        table (dva.parse_offset / v.asize + j) =
          (do_fletcher4 ((res.drop (j * v.asize)).take v.asize)).s1 % 2 ^ 32) :
    ∃ data c2,
      dva.dereference_raw v size c = (.ok data, c2) ∧ data.length = size ∧
      convOutputAt table mask (dva.parse_offset / v.asize) % 2 ^ 32 =
        (do_fletcher4 data).s1 % 2 ^ 32 := by
  have hAne : v.asize ≠ 0 := by omega
  have hN0 : 0 < v.ndevices := by omega
  obtain ⟨m, hm⟩ : ∃ m, m = B + ceilDivSrc B (v.ndevices - 1) := ⟨_, rfl⟩
  have hceil : ceilDivSrc size v.asize = B := by
    rw [hsize, ceilDivSrc, Nat.mul_mod_left, if_pos rfl, Nat.mul_div_cancel _ hA0]
  have hswp : sizeWithParity v size = m * v.asize := by
    rw [sizeWithParity, hceil, hp, Nat.mul_one, ← hm]
  have hlen : res.length = m * v.asize := by
    rw [VdevRaidzM.read_length v _ _ c c1 res hread, hswp]
  -- mask characterization
  rw [hp, calc_mask_unfold dva.parse_offset size v.asize v.ndevices,
    if_pos (show 1 < v.ndevices by omega),
    show size / v.asize = B from by rw [hsize, Nat.mul_div_cancel _ hA0]] at hmask
  obtain ⟨hm1, hm2, hm3, hm4⟩ :=
    convMaskGo_spec (raidzColumnMapping 1 dva.parse_offset v.ndevices)
      v.ndevices 1 _ 0 B mask hmask
  have hq1 : raidzParityColumn dva.parse_offset ≤ 1 := by
    rw [raidzParityColumn]
    split <;> omega
  have hqN : raidzParityColumn dva.parse_offset < v.ndevices := by omega
  have hm4' : ∀ j, j < mask.length →
      (mask.getD j false = true ↔
        j % v.ndevices ≠ raidzParityColumn dva.parse_offset) := by
    intro j hj
    rw [hm4 j hj, Nat.zero_add, decide_eq_true_eq]
    exact mapping_data_iff dva.parse_offset v.ndevices (j % v.ndevices) hN
      (Nat.mod_lt j hN0)
  -- counting
  have hdataL : (∑ j ∈ Finset.range mask.length,
      if j % v.ndevices ≠ raidzParityColumn dva.parse_offset then 1 else 0) = B := by
    calc (∑ j ∈ Finset.range mask.length,
        if j % v.ndevices ≠ raidzParityColumn dva.parse_offset then 1 else 0)
        = ∑ j ∈ Finset.range mask.length,
            if mask.getD j false = true then 1 else 0 := by
          refine Finset.sum_congr rfl ?_
          intro j hj
          have hjL := Finset.mem_range.mp hj
          by_cases hc : j % v.ndevices ≠ raidzParityColumn dva.parse_offset
          · rw [if_pos hc, if_pos ((hm4' j hjL).mpr hc)]
          · rw [if_neg hc, if_neg (fun hg => hc ((hm4' j hjL).mp hg))]
      _ = mask.count true := (count_true_sum mask).symm
      _ = B := hm3
  have hdatam : (∑ i ∈ Finset.range m,
      if i % v.ndevices ≠ raidzParityColumn dva.parse_offset then 1 else 0) = B :=
    data_count v.ndevices B (raidzParityColumn dva.parse_offset) m hN hB hq1 hm
  have hLm : mask.length ≤ m := by
    by_contra hc
    push_neg at hc
    have hlast : mask.getD (mask.length - 1) false = true := by
      rw [List.getD_eq_getElem?_getD, ← List.getLast?_eq_getElem?, hm2]
      rfl
    have hdl : (mask.length - 1) % v.ndevices ≠ raidzParityColumn dva.parse_offset :=
      (hm4' (mask.length - 1) (by omega)).mp hlast
    have hsplit := sum_range_split mask.length m
      (fun i => if i % v.ndevices ≠ raidzParityColumn dva.parse_offset then 1 else 0)
      (by omega)
    have hmem : mask.length - 1 ∈ Finset.Ico m mask.length :=
      Finset.mem_Ico.mpr ⟨by omega, by omega⟩
    have hne : (∑ x ∈ Finset.Ico m mask.length,
        if x % v.ndevices ≠ raidzParityColumn dva.parse_offset
        then (1 : Nat) else 0) ≠ 0 := by
      intro hz
      have hterm := Finset.sum_eq_zero_iff.mp hz (mask.length - 1) hmem
      rw [if_pos hdl] at hterm
      exact one_ne_zero hterm
    simp only [] at hsplit
    omega
  have hIco0 : ∀ i ∈ Finset.Ico mask.length m,
      ¬ i % v.ndevices ≠ raidzParityColumn dva.parse_offset := by
    have hsplit := sum_range_split m mask.length
      (fun i => if i % v.ndevices ≠ raidzParityColumn dva.parse_offset then 1 else 0)
      hLm
    simp only [] at hsplit
    have hz : (∑ i ∈ Finset.Ico mask.length m,
        if i % v.ndevices ≠ raidzParityColumn dva.parse_offset then 1 else 0) = 0 := by
      omega
    intro i hi hcond
    have hterm := Finset.sum_eq_zero_iff.mp hz i hi
    rw [if_pos hcond] at hterm
    exact one_ne_zero hterm
  -- transpose length
  have htrlen :
      (raidzTranspose v.asize v.ndevices v.nparity dva.parse_offset res).length
        = size := by
    rw [hp, raidzTranspose_length v.asize v.ndevices dva.parse_offset hAne hN res m
      hlen, erase_sum_to_ite v.ndevices (raidzParityColumn dva.parse_offset) m hqN
      (fun _ => v.asize)]
    have hmul : (∑ i ∈ Finset.range m,
        if i % v.ndevices ≠ raidzParityColumn dva.parse_offset
        then v.asize else 0) =
        v.asize * ∑ i ∈ Finset.range m,
          if i % v.ndevices ≠ raidzParityColumn dva.parse_offset then 1 else 0 := by
      rw [Finset.mul_sum]
      refine Finset.sum_congr rfl ?_
      intro i _
      by_cases h : i % v.ndevices ≠ raidzParityColumn dva.parse_offset <;> simp [h]
    rw [hmul, hdatam, hsize, Nat.mul_comm]
  refine ⟨raidzTranspose v.asize v.ndevices v.nparity dva.parse_offset res, c1,
    ?_, htrlen, ?_⟩
  · rw [dereference_raw_ok dva v size c res c1 hread,
      if_pos (le_of_eq htrlen.symm), List.take_of_length_le (le_of_eq htrlen)]
  · -- the congruence
    have hconv : convOutputAt table mask (dva.parse_offset / v.asize) =
        ∑ j ∈ Finset.range mask.length,
          if j % v.ndevices ≠ raidzParityColumn dva.parse_offset then
            wordsSum ((res.drop (j * v.asize)).take v.asize) % 2 ^ 32 else 0 := by
      have hdef : convOutputAt table mask (dva.parse_offset / v.asize) =
          ∑ j ∈ Finset.range mask.length,
            if mask.getD j false then table (dva.parse_offset / v.asize + j)
            else 0 := rfl
      rw [hdef]
      refine Finset.sum_congr rfl ?_
      intro j hj
      have hjL := Finset.mem_range.mp hj
      by_cases hg : mask.getD j false = true
      · rw [if_pos hg, if_pos ((hm4' j hjL).mp hg), htable j hjL,
          do_fletcher4_s1_eq, show M64 = 2 ^ 64 from rfl,
          Nat.mod_mod_of_dvd _ (show (2:Nat) ^ 32 ∣ 2 ^ 64 from ⟨2 ^ 32, by norm_num⟩)]
      · rw [if_neg (fun hgg => hg hgg), if_neg (fun hc => hg ((hm4' j hjL).mpr hc))]
    have hext : (∑ j ∈ Finset.range mask.length,
        if j % v.ndevices ≠ raidzParityColumn dva.parse_offset then
          wordsSum ((res.drop (j * v.asize)).take v.asize) % 2 ^ 32 else 0) =
        ∑ j ∈ Finset.range m,
          if j % v.ndevices ≠ raidzParityColumn dva.parse_offset then
            wordsSum ((res.drop (j * v.asize)).take v.asize) % 2 ^ 32 else 0 := by
      have hsp := sum_range_split m mask.length
        (fun j => if j % v.ndevices ≠ raidzParityColumn dva.parse_offset then
          wordsSum ((res.drop (j * v.asize)).take v.asize) % 2 ^ 32 else 0) hLm
      simp only [] at hsp
      have hz : (∑ i ∈ Finset.Ico mask.length m,
          if i % v.ndevices ≠ raidzParityColumn dva.parse_offset then
            wordsSum ((res.drop (i * v.asize)).take v.asize) % 2 ^ 32 else 0) = 0 :=
        Finset.sum_eq_zero (fun i hi => if_neg (hIco0 i hi))
      omega
    have hmodpull : (∑ j ∈ Finset.range m,
        if j % v.ndevices ≠ raidzParityColumn dva.parse_offset then
          wordsSum ((res.drop (j * v.asize)).take v.asize) % 2 ^ 32 else 0) % 2 ^ 32 =
        (∑ j ∈ Finset.range m,
          if j % v.ndevices ≠ raidzParityColumn dva.parse_offset then
            wordsSum ((res.drop (j * v.asize)).take v.asize) else 0) % 2 ^ 32 := by
      rw [Finset.sum_nat_mod, Finset.sum_nat_mod (Finset.range m) (2 ^ 32)
        (fun j => if j % v.ndevices ≠ raidzParityColumn dva.parse_offset then
          wordsSum ((res.drop (j * v.asize)).take v.asize) else 0)]
      congr 1
      refine Finset.sum_congr rfl ?_
      intro i _
      by_cases h : i % v.ndevices ≠ raidzParityColumn dva.parse_offset
      · rw [if_pos h, if_pos h, Nat.mod_mod_of_dvd _ (dvd_refl _)]
      · rw [if_neg h, if_neg h]
    have htr : wordsSum
        (raidzTranspose v.asize v.ndevices v.nparity dva.parse_offset res) =
        ∑ j ∈ Finset.range m,
          if j % v.ndevices ≠ raidzParityColumn dva.parse_offset then
            wordsSum ((res.drop (j * v.asize)).take v.asize) else 0 := by
      rw [hp, raidzTranspose_wordsSum v.asize v.ndevices dva.parse_offset hAne hA4
        hN res m hlen, erase_sum_to_ite v.ndevices
        (raidzParityColumn dva.parse_offset) m hqN
        (fun i => wordsSum ((res.drop (i * v.asize)).take v.asize))]
    rw [hconv, hext, hmodpull, ← htr, do_fletcher4_s1_eq,
      show M64 = 2 ^ 64 from rfl,
      Nat.mod_mod_of_dvd _ (show (2:Nat) ^ 32 ∣ 2 ^ 64 from ⟨2 ^ 32, by norm_num⟩)]

/-- Disk sectors of the C4 RAIDZ-1 example: sector 0 is the parity
column, sectors 1 and 2 are the data columns of the block at offset 0. -/
def c4Sector (d : Nat) : List Nat :=
  if d = 0 then [9, 9, 9, 9] else if d = 1 then [255, 255, 255, 255] else [1, 0, 0, 0]

/-- Three leaf devices, each serving its own sector content. -/
def c4Devices : Nat → Option (Nat → Nat → Except Unit (List Nat)) :=
  fun d => if d < 3 then some (fun _ _ => .ok (c4Sector d)) else none

/-- A 3-device RAIDZ-1 vdev with 4-byte sectors. -/
def c4Vdev : VdevRaidzM := ⟨c4Devices, 3, 1, 4⟩

/-- The DVA at byte offset 0. -/
def c4Dva : DataVirtualAddress := ⟨0, 0, 0, false⟩

/-- The sector-checksum table of the example: entry `s` is the low 32
bits of fletcher4-s1 of disk sector `s`. -/
def c4Table : Nat → Nat := fun s => (do_fletcher4 (c4Sector (s % 3))).s1 % 2 ^ 32

/-- The convolution mask for the block: parity, data, data. -/
def c4Mask : List Bool := [false, true, true]

/-- The raw bytes the RAIDZ read returns for the block plus parity. -/
def c4Res : List Nat := c4Sector 0 ++ (c4Sector 1 ++ c4Sector 2)

/-- The sector cache after the RAIDZ read of the example block. -/
def c4FinalCache : SectorCache := [(2, c4Sector 2), (1, c4Sector 1), (0, c4Sector 0)]

theorem stepBy3_pair (a b : List Nat) : stepBy 3 [a, b] = [a] := by
  rw [stepBy, show List.drop (3 - 1) [b] = ([] : List (List Nat)) from rfl, stepBy]

theorem stepBy3_single (a : List Nat) : stepBy 3 [a] = [a] := by
  rw [stepBy, show List.drop (3 - 1) ([] : List (List Nat)) = [] from rfl, stepBy]

theorem c4_chunks : listChunks 4 c4Res = [c4Sector 0, c4Sector 1, c4Sector 2] := by
  rw [c4Res, listChunks_append 4 (by decide) _ _ (by decide),
    listChunks_append 4 (by decide) _ _ (by decide),
    listChunks_exact 4 (by decide) _ (by decide)]

theorem c4_transpose :
    raidzTranspose 4 3 1 0 c4Res = [255, 255, 255, 255, 1, 0, 0, 0] := by
  rw [raidzTranspose, raidzColumnMapping_even 0 3 rfl, c4_chunks,
    show ((List.range 3).drop 1) = [1, 2] from rfl, List.map_cons, List.map_cons,
    List.map_nil,
    show ([c4Sector 0, c4Sector 1, c4Sector 2].drop ((List.range 3).getD 1 0)) =
      [c4Sector 1, c4Sector 2] from rfl,
    show ([c4Sector 0, c4Sector 1, c4Sector 2].drop ((List.range 3).getD 2 0)) =
      [c4Sector 2] from rfl,
    stepBy3_pair, stepBy3_single]
  decide

theorem c4_dereference :
    c4Dva.dereference_raw c4Vdev 8 [] =
      (.ok [255, 255, 255, 255, 1, 0, 0, 0], c4FinalCache) := by
  rw [dereference_raw_ok c4Dva c4Vdev 8 [] c4Res c4FinalCache rfl,
    show c4Vdev.asize = 4 from rfl, show c4Vdev.ndevices = 3 from rfl,
    show c4Vdev.nparity = 1 from rfl, show c4Dva.parse_offset = 0 from rfl,
    c4_transpose]
  rfl

/-- C4 counterexample: on a 3-device RAIDZ-1 with 4-byte sectors, for the
two-sector block at offset 0 (data sectors `[255,255,255,255]` and
`[1,0,0,0]`), the sector-checksum table is honest, the dereference
returns the block, and the convolution output at its location is
`2^32`, not `C[0] & 0xFFFFFFFF = 0`; the two only agree after the u32
truncation the scanner applies. -/
theorem C4_conv_exact_value_refuted :
    calculate_convolution_vector_for_block 0 8 true 4 3 1 = some c4Mask ∧
    (∀ j, j < 3 → c4Table j = (do_fletcher4 (c4Sector j)).s1 % 2 ^ 32) ∧
    c4Dva.dereference_raw c4Vdev 8 [] =
      (.ok [255, 255, 255, 255, 1, 0, 0, 0], c4FinalCache) ∧
    convOutputAt c4Table c4Mask 0 = 4294967296 ∧
    (do_fletcher4 [255, 255, 255, 255, 1, 0, 0, 0]).s1 % 2 ^ 32 = 0 ∧
    convOutputAt c4Table c4Mask 0 ≠
      (do_fletcher4 [255, 255, 255, 255, 1, 0, 0, 0]).s1 % 2 ^ 32 ∧
    convOutputAt c4Table c4Mask 0 % 2 ^ 32 =
      (do_fletcher4 [255, 255, 255, 255, 1, 0, 0, 0]).s1 % 2 ^ 32 := by
  refine ⟨rfl, by decide, c4_dereference, by decide, by decide, by decide, by decide⟩

/-- Witness for C4 at the concrete 3-device RAIDZ-1 example. -/
theorem C4_conv_partial_checksum_congruence_witness :
    (c4Vdev.read c4Dva.parse_offset (sizeWithParity c4Vdev 8) [] =
      (.ok c4Res, c4FinalCache)) ∧
    (calculate_convolution_vector_for_block c4Dva.parse_offset 8 true c4Vdev.asize
      c4Vdev.ndevices c4Vdev.nparity = some c4Mask) ∧
    (∀ j, j < c4Mask.length →
      c4Table (c4Dva.parse_offset / c4Vdev.asize + j) =
        (do_fletcher4 ((c4Res.drop (j * c4Vdev.asize)).take c4Vdev.asize)).s1
          % 2 ^ 32) ∧
    ∃ data c2,
      c4Dva.dereference_raw c4Vdev 8 [] = (.ok data, c2) ∧ data.length = 8 ∧
      convOutputAt c4Table c4Mask (c4Dva.parse_offset / c4Vdev.asize) % 2 ^ 32 =
        (do_fletcher4 data).s1 % 2 ^ 32 :=
  ⟨rfl, rfl, by decide,
   C4_conv_partial_checksum_congruence c4Vdev c4Dva c4Table 2 8 c4Mask [] c4FinalCache c4Res
     (by decide) rfl (by decide) (by decide) (by decide) rfl rfl rfl (by decide)⟩
